import Mathlib

/-!
# Verification of the arraydeque library

A shallow embedding of the `ArrayDeque` circular-buffer deque
(`src/ArrayDeque.ts`, the revision with `MAX_CAPACITY`) and of the
`BlockingQueue` producer/consumer queue built on top of it
(`src/BlockingQueue.ts`, both the plain revision and the revision with
`tee`/`_addListener`), together with proofs of the specification's claims.

Modelling conventions:
* JS `number` values that the code keeps as array indices or sizes are
  modelled as `Nat` (they stay far below 2^53, and the code's `& mask`
  arithmetic is modelled exactly, see `decAnd`).
* The backing store `_buffer` is a `List (Option T)`: a slot holds `some v`
  for an element `v` and `none` for the empty marker (`undefined`); reading
  a slot out of bounds also yields `undefined`, i.e. `List.getD _ _ none`.
* `throw new RangeError(msg)` becomes `Except.error msg`; an operation that
  throws returns no new state, so the caller's deque is untouched, exactly
  as in JS where the throw happens before any field write.
* Promises in `BlockingQueue` are modelled by ghost bookkeeping: each call
  to `dequeue` creates the promise with id `nextId`, and a resolution of
  promise `i` with value `v` appends `(i, v)` to the ghost list `resolved`.
  A stored resolve callback is represented by the id of its promise.
-/

set_option maxHeartbeats 1000000

namespace ArraydequeSpec

/-- `ArrayDeque.MAX_CAPACITY = Math.pow(2, 31)`. -/
def MAX_CAPACITY : Nat := 2 ^ 31

/-- State of an `ArrayDeque<T>`: the `size`, `_head`, `_buffer` and
`_indexMask` fields of the class. A buffer slot holds `some v` for an
element and `none` for `undefined`. -/
structure ArrayDeque (T : Type) where
  size : Nat
  head : Nat
  buffer : List (Option T)
  indexMask : Nat
deriving DecidableEq

/-- JS `(x - 1) & mask` evaluated in 32-bit two's complement, for
`0 ≤ x ≤ 2^31` and `0 ≤ mask < 2^31`: when `x = 0` the intermediate is
`-1`, whose bitwise AND with the non-negative `mask` is `mask`; otherwise
`x - 1` is non-negative and the AND is the plain `Nat` one. Used for
`(this._head - 1) & this._indexMask` in `unshift` and for
`(this._head + this.size - 1) & this._indexMask` in `last`/`popUnchecked`. -/
def decAnd (x mask : Nat) : Nat :=
  if x = 0 then mask else (x - 1) &&& mask

/-- The constructor loop `while (pow2Capacity < capacity) pow2Capacity *= 2`,
entered with `pow2Capacity = p`. The `p = 0` guard is unreachable from the
call site (which passes `p = 1`) and exists only for termination. -/
def pow2From (p capacity : Nat) : Nat :=
  if p = 0 then 0
  else if p < capacity then pow2From (p * 2) capacity
  else p
termination_by capacity - p
decreasing_by simp_wf; omega

/-- The `do { pow2Capacity *= 2 } while (pow2Capacity < capacity)` loop of
`ensureCapacity`, entered with `pow2Capacity = p`. The `p = 0` guard is
unreachable from the call site (`p` is a buffer length, hence positive). -/
def growFrom (p capacity : Nat) : Nat :=
  if p = 0 then 0
  else if p * 2 < capacity then growFrom (p * 2) capacity
  else p * 2
termination_by capacity - p
decreasing_by simp_wf; omega

/-- The message of the `RangeError` thrown by `_assertCapacityValid`. -/
def capacityExceededMsg (capacity : Nat) : String :=
  "requested capacity of " ++ toString capacity ++
    " exceeds ArrayDeque.MAX_CAPACITY = " ++ toString MAX_CAPACITY

/-- The message of the `RangeError` thrown by `set`. -/
def outOfRangeMsg (index : Int) (size : Nat) : String :=
  "index " ++ toString index ++ " out of range for ArrayDeque of size " ++
    toString size

namespace ArrayDeque

/-- `ArrayDeque._assertCapacityValid(capacity)`. -/
def assertCapacityValid (capacity : Nat) : Except String Unit :=
  if capacity > MAX_CAPACITY then .error (capacityExceededMsg capacity)
  else .ok ()

/-- `new ArrayDeque(capacity?)`: round the hint up to a power of two
(`16` when absent), check it against `MAX_CAPACITY`, and start empty. -/
def mkDeque (T : Type) (capacity : Option Nat) : Except String (ArrayDeque T) :=
  let pow2Capacity : Nat :=
    match capacity with
    | none => 16
    | some c => pow2From 1 c
  match assertCapacityValid pow2Capacity with
  | .error e => .error e
  | .ok _ =>
    .ok { size := 0, head := 0, buffer := List.replicate pow2Capacity none,
          indexMask := pow2Capacity - 1 }

/-- The relocation loop of `_resize` (wrap case):
`newBuffer[i] = this._buffer[(this._head + i) & this._indexMask]` for
`i = 0 .. size - 1`, into a fresh buffer of `pow2Capacity` empty slots. -/
def relocate (s : ArrayDeque T) (pow2Capacity : Nat) : List (Option T) :=
  (List.range s.size).foldl
    (fun nb i => nb.set i (s.buffer.getD ((s.head + i) &&& s.indexMask) none))
    (List.replicate pow2Capacity none)

/-- `ArrayDeque._resize(pow2Capacity)`. In the non-wrap case JS sets
`this._buffer.length = pow2Capacity`, which pads with `undefined` slots
(or truncates, for a shorter length); `List.takeD` has exactly that
behavior on our buffer model. -/
def _resize (s : ArrayDeque T) (pow2Capacity : Nat) :
    Except String (ArrayDeque T) :=
  match assertCapacityValid pow2Capacity with
  | .error e => .error e
  | .ok _ =>
    if s.head + s.size ≤ s.buffer.length then
      .ok { s with buffer := s.buffer.takeD pow2Capacity none,
                   indexMask := pow2Capacity - 1 }
    else
      .ok { size := s.size, head := 0,
            buffer := s.relocate pow2Capacity,
            indexMask := pow2Capacity - 1 }

/-- `ArrayDeque.ensureCapacity(capacity)`. -/
def ensureCapacity (s : ArrayDeque T) (capacity : Nat) :
    Except String (ArrayDeque T) :=
  if capacity ≤ s.buffer.length then .ok s
  else s._resize (growFrom s.buffer.length capacity)

/-- `ArrayDeque.unshift(value)`: grow if full, then write at
`(this._head - 1) & this._indexMask` and move the head there. -/
def unshift (s : ArrayDeque T) (value : T) : Except String (ArrayDeque T) :=
  match (if s.size = s.buffer.length
         then s._resize (s.buffer.length * 2) else .ok s) with
  | .error e => .error e
  | .ok t =>
    let newHead := decAnd t.head t.indexMask
    .ok { t with buffer := t.buffer.set newHead (some value),
                 head := newHead, size := t.size + 1 }

/-- `ArrayDeque.push(value)`: grow if full, then write at
`(this._head + this.size) & this._indexMask`. -/
def push (s : ArrayDeque T) (value : T) : Except String (ArrayDeque T) :=
  match (if s.size = s.buffer.length
         then s._resize (s.buffer.length * 2) else .ok s) with
  | .error e => .error e
  | .ok t =>
    let newTail := (t.head + t.size) &&& t.indexMask
    .ok { t with buffer := t.buffer.set newTail (some value),
                 size := t.size + 1 }

/-- `ArrayDeque.enqueue(value)`, an alias of `push`. -/
def enqueue (s : ArrayDeque T) (value : T) : Except String (ArrayDeque T) :=
  s.push value

/-- `ArrayDeque.first()`: reads `this._buffer[this._head]` with no
emptiness check. -/
def first (s : ArrayDeque T) : Option T :=
  s.buffer.getD s.head none

/-- `ArrayDeque.last()`: reads the slot
`(this._head + this.size - 1) & this._indexMask` with no emptiness check. -/
def last (s : ArrayDeque T) : Option T :=
  s.buffer.getD (decAnd (s.head + s.size) s.indexMask) none

/-- `ArrayDeque.shiftUnchecked()`: read the head slot, clear it, advance the
head, decrement the size; returns the value read together with the new
state. (In JS `size--` on an empty deque would make `size` negative; here
truncated `Nat` subtraction gives 0. `shiftUnchecked` on an empty deque is
documented as undefined behavior and is never reached from `shift`.) -/
def shiftUnchecked (s : ArrayDeque T) : Option T × ArrayDeque T :=
  (s.buffer.getD s.head none,
   { s with buffer := s.buffer.set s.head none,
            head := (s.head + 1) &&& s.indexMask,
            size := s.size - 1 })

/-- `ArrayDeque.shift()`. -/
def shift (s : ArrayDeque T) : Option T × ArrayDeque T :=
  if s.size = 0 then (none, s) else s.shiftUnchecked

/-- `ArrayDeque.dequeue()`, an alias of `shift`. -/
def dequeue (s : ArrayDeque T) : Option T × ArrayDeque T :=
  s.shift

/-- `ArrayDeque.popUnchecked()`: read and clear the tail slot
`(this._head + this.size - 1) & this._indexMask`, decrement the size. -/
def popUnchecked (s : ArrayDeque T) : Option T × ArrayDeque T :=
  let tail := decAnd (s.head + s.size) s.indexMask
  (s.buffer.getD tail none,
   { s with buffer := s.buffer.set tail none, size := s.size - 1 })

/-- `ArrayDeque.pop()`. -/
def pop (s : ArrayDeque T) : Option T × ArrayDeque T :=
  if s.size = 0 then (none, s) else s.popUnchecked

/-- `ArrayDeque.getNonNegativeUnchecked(index)`. -/
def getNonNegativeUnchecked (s : ArrayDeque T) (index : Nat) : Option T :=
  s.buffer.getD ((s.head + index) &&& s.indexMask) none

/-- `ArrayDeque.getUnchecked(index)`: add `size` to a negative index, then
read. -/
def getUnchecked (s : ArrayDeque T) (index : Int) : Option T :=
  let index := if index < 0 then index + s.size else index
  s.getNonNegativeUnchecked index.toNat

/-- `ArrayDeque.get(index)`: `undefined` out of `[-size, size)`, otherwise
`getUnchecked`. -/
def get (s : ArrayDeque T) (index : Int) : Option T :=
  if index < -(s.size : Int) ∨ (s.size : Int) ≤ index then none
  else s.getUnchecked index

/-- `ArrayDeque.at(index)`, an alias of `get`. -/
def getAt (s : ArrayDeque T) (index : Int) : Option T :=
  s.get index

/-- `ArrayDeque.setNonNegativeUnchecked(index, value)`. -/
def setNonNegativeUnchecked (s : ArrayDeque T) (index : Nat) (value : T) :
    ArrayDeque T :=
  { s with buffer := s.buffer.set ((s.head + index) &&& s.indexMask) (some value) }

/-- `ArrayDeque.setUnchecked(index, value)`. -/
def setUnchecked (s : ArrayDeque T) (index : Int) (value : T) : ArrayDeque T :=
  let index := if index < 0 then index + s.size else index
  s.setNonNegativeUnchecked index.toNat value

/-- `ArrayDeque.set(index, value)`: `RangeError` out of `[-size, size)`,
otherwise replace in place. -/
def set (s : ArrayDeque T) (index : Int) (value : T) :
    Except String (ArrayDeque T) :=
  if index < -(s.size : Int) ∨ (s.size : Int) ≤ index then
    .error (outOfRangeMsg index s.size)
  else
    .ok (s.setUnchecked index value)

/-- The content of logical position `i`: physical slot
`(head + i) mod capacity`. This is the abstraction used to state
properties; under `Inv` it agrees with the code's `&&& indexMask` reads. -/
def elemAt (s : ArrayDeque T) (i : Nat) : Option T :=
  s.buffer.getD ((s.head + i) % s.buffer.length) none

/-- The logical contents, head to tail. -/
def toList (s : ArrayDeque T) : List (Option T) :=
  (List.range s.size).map s.elemAt

/-- Well-formedness of an `ArrayDeque` state, as documented on the class's
fields: the buffer length is a power of two, `_indexMask` equals
`_buffer.length - 1`, the head is a valid slot, at most `capacity` elements
are stored, every live slot holds an element, and every other slot holds
the empty marker. -/
structure Inv (s : ArrayDeque T) : Prop where
  pow2 : ∃ k, s.buffer.length = 2 ^ k
  mask_eq : s.indexMask = s.buffer.length - 1
  head_lt : s.head < s.buffer.length
  size_le : s.size ≤ s.buffer.length
  live : ∀ i, i < s.size → s.elemAt i ≠ none
  dead : ∀ j, j < s.buffer.length →
    (∀ i, i < s.size → j ≠ (s.head + i) % s.buffer.length) →
    s.buffer.getD j none = none

end ArrayDeque

/-! ## BlockingQueue (`src/BlockingQueue.ts`)

`_values` and `_resolves` are two `ArrayDeque`s; `_resolves` stores the
resolve callbacks of pending promises, which we represent by the ids of
their promises (the n-th `dequeue` call creates promise id n). The ghost
fields `nextId`, `resolved` and `history` record, respectively, how many
`dequeue` calls were made, which promise resolved to which value (in
resolution order), and every value ever passed to `enqueue` (in call
order). -/

structure BlockingQueue (T : Type) where
  values : ArrayDeque T
  resolves : ArrayDeque Nat
  nextId : Nat
  resolved : List (Nat × Option T)
  history : List T

namespace BlockingQueue

/-- The `new ArrayDeque<U>()` deque: capacity 16, empty. -/
def freshDeque (U : Type) : ArrayDeque U :=
  { size := 0, head := 0, buffer := List.replicate 16 none, indexMask := 15 }

/-- `new BlockingQueue()`. -/
def fresh (T : Type) : BlockingQueue T :=
  { values := freshDeque T, resolves := freshDeque Nat,
    nextId := 0, resolved := [], history := [] }

/-- `BlockingQueue.enqueue(value)`: if a waiter is pending, hand it the
value (`this._resolves.dequeue()!(value)`; calling an `undefined` callback
would be a JS `TypeError`, modelled as an error and unreachable in
well-formed states); otherwise buffer it. -/
def enqueue (q : BlockingQueue T) (value : T) :
    Except String (BlockingQueue T) :=
  if q.resolves.size > 0 then
    match q.resolves.dequeue with
    | (some id, resolves') =>
      .ok { q with resolves := resolves',
                   resolved := q.resolved ++ [(id, some value)],
                   history := q.history ++ [value] }
    | (none, _) => .error "TypeError: resolve is not a function"
  else
    match q.values.enqueue value with
    | .ok values' => .ok { q with values := values',
                                  history := q.history ++ [value] }
    | .error e => .error e

/-- `BlockingQueue.dequeue()`: the call creates promise id `nextId`. If a
value is buffered, the promise resolves immediately to it (returned as the
first component); otherwise the resolve callback is stored in
`_resolves`. -/
def dequeue (q : BlockingQueue T) :
    Except String (Option (Option T) × BlockingQueue T) :=
  if q.values.size > 0 then
    let (v, values') := q.values.dequeue
    .ok (some v, { q with values := values',
                          nextId := q.nextId + 1,
                          resolved := q.resolved ++ [(q.nextId, v)] })
  else
    match q.resolves.enqueue q.nextId with
    | .ok resolves' =>
      .ok (none, { q with resolves := resolves', nextId := q.nextId + 1 })
    | .error e => .error e

/-- One public call on a `BlockingQueue`. -/
inductive Op (T : Type) where
  | enq (v : T)
  | deq
deriving DecidableEq

/-- Execute one call (the value a `dequeue` may immediately return is
recorded in the ghost field `resolved`, so it is not kept separately). -/
def step (q : BlockingQueue T) : Op T → Except String (BlockingQueue T)
  | .enq v => q.enqueue v
  | .deq =>
    match q.dequeue with
    | .ok (_, q') => .ok q'
    | .error e => .error e

/-- Execute a sequence of calls. -/
def run (q : BlockingQueue T) : List (Op T) → Except String (BlockingQueue T)
  | [] => .ok q
  | op :: rest =>
    match q.step op with
    | .ok q' => run q' rest
    | .error e => .error e

/-- The values enqueued by a call sequence, in order. -/
def enqValues : List (Op T) → List T
  | [] => []
  | .enq v :: rest => v :: enqValues rest
  | .deq :: rest => enqValues rest

/-- The number of `dequeue` calls in a call sequence. -/
def deqCount : List (Op T) → Nat
  | [] => 0
  | .enq _ :: rest => deqCount rest
  | .deq :: rest => 1 + deqCount rest

/-- Well-formedness of a `BlockingQueue` state, relative to its ghost
history: writing `E` for the number of `enqueue` calls, `D` for the number
of `dequeue` calls and `m = min E D` for the number of promise resolutions
that have happened, the buffered values are the produced-but-unclaimed ones
`history[m..]`, the pending waiters are the promise ids `m, …, D - 1`, and
promise `j` has resolved to the `j`-th produced value for every `j < m`. -/
structure WF (q : BlockingQueue T) : Prop where
  vinv : q.values.Inv
  rinv : q.resolves.Inv
  values_eq : q.values.toList =
    (q.history.drop (min q.history.length q.nextId)).map some
  resolves_eq : q.resolves.toList =
    (List.range' (min q.history.length q.nextId)
      (q.nextId - min q.history.length q.nextId)).map some
  resolved_eq : q.resolved =
    (List.range (min q.history.length q.nextId)).map
      (fun j => (j, q.history[j]?))

end BlockingQueue

/-! ## Tee (`src/BlockingQueue.ts`, revision with `_listeners`/`tee`)

In that revision `enqueue` first passes the value to every listener, and
`tee` registers via `_addListener` a listener that enqueues into a fresh
`BlockingQueue`, after replaying the currently buffered values into it.
A listener closure `(value) => teed.enqueue(value)` is represented by the
teed queue it captures; the system state keeps the original queue and the
list of teed queues, in listener registration order. -/

structure TeeSys (T : Type) where
  orig : BlockingQueue T
  tees : List (BlockingQueue T)

namespace TeeSys

/-- The replay loop of `_addListener`:
`for (const value of this._values) listener(value)`, where the listener
enqueues into the teed queue. Iteration yields the slot contents from head
to tail; a live slot holding the empty marker cannot occur in a well-formed
deque (`Inv.live`), so the `none` branch is unreachable and modelled as an
error. -/
def replay (q : BlockingQueue T) : List (Option T) →
    Except String (BlockingQueue T)
  | [] => .ok q
  | some v :: rest =>
    match q.enqueue v with
    | .ok q' => replay q' rest
    | .error e => .error e
  | none :: _ => .error "TypeError: undefined element"

/-- `BlockingQueue.enqueue(value)` in the listener revision: fan out to
every listener (in registration order) first, then do the queue's own
waiter/buffer handling. -/
def enqueue (sys : TeeSys T) (value : T) : Except String (TeeSys T) :=
  match sys.tees.mapM (fun t => t.enqueue value) with
  | .error e => .error e
  | .ok tees' =>
    match sys.orig.enqueue value with
    | .error e => .error e
    | .ok orig' => .ok { orig := orig', tees := tees' }

/-- `BlockingQueue.tee()`: create a fresh queue, register a listener that
enqueues into it (`_addListener`), which replays the currently buffered
values; the teed queue is appended to the listener list. -/
def tee (sys : TeeSys T) : Except String (TeeSys T) :=
  match replay (BlockingQueue.fresh T) sys.orig.values.toList with
  | .error e => .error e
  | .ok teed => .ok { orig := sys.orig, tees := sys.tees ++ [teed] }

/-- `dequeue()` on the original queue: listeners are not involved. -/
def dequeueOrig (sys : TeeSys T) :
    Except String (Option (Option T) × TeeSys T) :=
  match sys.orig.dequeue with
  | .ok (r, orig') => .ok (r, { orig := orig', tees := sys.tees })
  | .error e => .error e

/-- `dequeue()` on the `i`-th teed queue. -/
def dequeueTee (sys : TeeSys T) (i : Nat) : Except String (TeeSys T) :=
  match sys.tees[i]? with
  | none => .ok sys
  | some t =>
    match t.dequeue with
    | .ok (_, t') => .ok { orig := sys.orig, tees := sys.tees.set i t' }
    | .error e => .error e

/-- One public call on the system. -/
inductive Op (T : Type) where
  | enq (v : T)
  | deqOrig
  | deqTee (i : Nat)
  | tee

/-- Execute one call. -/
def step (sys : TeeSys T) : Op T → Except String (TeeSys T)
  | .enq v => sys.enqueue v
  | .deqOrig =>
    match sys.dequeueOrig with
    | .ok (_, sys') => .ok sys'
    | .error e => .error e
  | .deqTee i => sys.dequeueTee i
  | .tee => sys.tee

/-- Execute a sequence of calls. -/
def run (sys : TeeSys T) : List (Op T) → Except String (TeeSys T)
  | [] => .ok sys
  | op :: rest =>
    match sys.step op with
    | .ok sys' => run sys' rest
    | .error e => .error e

/-- The values enqueued by a call sequence, in order. -/
def enqValues : List (Op T) → List T
  | [] => []
  | .enq v :: rest => v :: enqValues rest
  | .deqOrig :: rest => enqValues rest
  | .deqTee _ :: rest => enqValues rest
  | .tee :: rest => enqValues rest

/-- Well-formedness of the whole system: the original queue and every
teed queue are well-formed. -/
def SysWF (sys : TeeSys T) : Prop :=
  sys.orig.WF ∧ ∀ t ∈ sys.tees, t.WF

end TeeSys

/-! ## Reachable `ArrayDeque` states (claim C10) -/

namespace ArrayDeque

/-- One public call on an `ArrayDeque`, from state `s` to state `s'`. A
call that throws (`Except.error`) leaves the deque unchanged: in JS the
`RangeError` is thrown before any field write. -/
inductive PublicStep : ArrayDeque T → ArrayDeque T → Prop where
  | push_ok (s : ArrayDeque T) (v : T) (s' : ArrayDeque T) :
      s.push v = .ok s' → PublicStep s s'
  | push_err (s : ArrayDeque T) (v : T) (e : String) :
      s.push v = .error e → PublicStep s s
  | unshift_ok (s : ArrayDeque T) (v : T) (s' : ArrayDeque T) :
      s.unshift v = .ok s' → PublicStep s s'
  | unshift_err (s : ArrayDeque T) (v : T) (e : String) :
      s.unshift v = .error e → PublicStep s s
  | shift (s : ArrayDeque T) : PublicStep s s.shift.2
  | pop (s : ArrayDeque T) : PublicStep s s.pop.2
  | set_ok (s : ArrayDeque T) (i : Int) (v : T) (s' : ArrayDeque T) :
      s.set i v = .ok s' → PublicStep s s'
  | set_err (s : ArrayDeque T) (i : Int) (v : T) (e : String) :
      s.set i v = .error e → PublicStep s s
  | ensure_ok (s : ArrayDeque T) (c : Nat) (s' : ArrayDeque T) :
      s.ensureCapacity c = .ok s' → PublicStep s s'
  | ensure_err (s : ArrayDeque T) (c : Nat) (e : String) :
      s.ensureCapacity c = .error e → PublicStep s s

/-- States reachable from a constructor call through public operations. -/
inductive Reachable : ArrayDeque T → Prop where
  | base (c : Option Nat) (s : ArrayDeque T) :
      mkDeque T c = .ok s → Reachable s
  | step (s s' : ArrayDeque T) :
      Reachable s → PublicStep s s' → Reachable s'

end ArrayDeque

/-! ## Helper lemmas: lists and modular arithmetic -/

namespace ArrayDeque

theorem getD_def {T : Type} (l : List (Option T)) (j : Nat) :
    l.getD j none = (l[j]?).getD none :=
  List.getD_eq_getElem?_getD l j none

/-- Setting the JS array length to a larger value pads with empty slots. -/
theorem takeD_grow {T : Type} (l : List (Option T)) (n : Nat)
    (h : l.length ≤ n) :
    l.takeD n none = l ++ List.replicate (n - l.length) none := by
  induction l generalizing n with
  | nil => simp [List.takeD_nil]
  | cons a l ih =>
    match n, h with
    | m + 1, h =>
      simp only [List.takeD_succ, List.headD_cons, List.tail_cons, List.length_cons,
        List.cons_append, Nat.succ_sub_succ]
      rw [ih m (by simpa using h)]
      simp

/-- The relocation loop writes the image of `f` on `0, …, n - 1` followed by
empty padding. -/
theorem foldl_set_range {T : Type} (f : Nat → Option T) :
    ∀ (n cap : Nat), n ≤ cap →
      (List.range n).foldl (fun nb i => nb.set i (f i))
          (List.replicate cap (none : Option T)) =
        (List.range n).map f ++ List.replicate (cap - n) none := by
  intro n
  induction n with
  | zero => simp
  | succ m ih =>
    intro cap h
    rw [List.range_succ, List.foldl_append, ih cap (Nat.le_of_lt h)]
    simp only [List.foldl_cons, List.foldl_nil, List.map_append, List.map_cons,
      List.map_nil]
    rw [List.set_append]
    have hlen : (List.map f (List.range m)).length = m := by simp
    rw [hlen, if_neg (lt_irrefl m)]
    have hrep : List.replicate (cap - m) (none : Option T) =
        none :: List.replicate (cap - (m + 1)) none := by
      have : cap - m = (cap - (m + 1)) + 1 := by omega
      rw [this, List.replicate_succ]
    rw [hrep]
    simp

/-- Distinct logical offsets below the capacity map to distinct slots. -/
theorem mod_inj {n h i j : Nat} (hi : i < n) (hj : j < n)
    (heq : (h + i) % n = (h + j) % n) : i = j := by
  have hmod : i % n = j % n := Nat.ModEq.add_left_cancel' h heq
  rwa [Nat.mod_eq_of_lt hi, Nat.mod_eq_of_lt hj] at hmod

theorem Inv.len_pos {T : Type} {s : ArrayDeque T} (h : s.Inv) :
    0 < s.buffer.length := by
  obtain ⟨k, hk⟩ := h.pow2
  rw [hk]
  exact Nat.pos_pow_of_pos k (by norm_num)

/-- Under the invariant, the code's masked reads are reads modulo the
capacity. -/
theorem Inv.and_mask {T : Type} {s : ArrayDeque T} (h : s.Inv) (x : Nat) :
    x &&& s.indexMask = x % s.buffer.length := by
  obtain ⟨k, hk⟩ := h.pow2
  rw [h.mask_eq, hk]
  exact Nat.and_pow_two_sub_one_eq_mod x k

/-- Under the invariant, JS `(x - 1) & mask` is decrement modulo the
capacity. -/
theorem Inv.decAnd_eq {T : Type} {s : ArrayDeque T} (h : s.Inv) (x : Nat) :
    decAnd x s.indexMask = (x + s.buffer.length - 1) % s.buffer.length := by
  have hpos := h.len_pos
  unfold decAnd
  split
  · rename_i hx
    subst hx
    rw [h.mask_eq, Nat.mod_eq_of_lt (by omega)]
    omega
  · rename_i hx
    rw [h.and_mask]
    have harith : x + s.buffer.length - 1 = (x - 1) + s.buffer.length := by
      omega
    rw [harith, Nat.add_mod_right]

theorem Inv.slot_lt {T : Type} {s : ArrayDeque T} (h : s.Inv) (x : Nat) :
    x % s.buffer.length < s.buffer.length :=
  Nat.mod_lt _ h.len_pos

theorem getD_append_left {T : Type} (l₁ l₂ : List (Option T)) (j : Nat)
    (hj : j < l₁.length) : (l₁ ++ l₂).getD j none = l₁.getD j none := by
  rw [getD_def, getD_def, List.getElem?_append, if_pos hj]

theorem getD_pad {T : Type} (l : List (Option T)) (n j : Nat)
    (hj : l.length ≤ j) :
    (l ++ List.replicate n (none : Option T)).getD j none = none := by
  rw [getD_def, List.getElem?_append_right hj, List.getElem?_replicate]
  split <;> simp

theorem getD_map_range {T : Type} (f : Nat → Option T) (n i : Nat)
    (hi : i < n) : ((List.range n).map f).getD i none = f i := by
  rw [getD_def, List.getElem?_map, List.getElem?_range hi]
  rfl

theorem toList_length {T : Type} (s : ArrayDeque T) :
    s.toList.length = s.size := by
  simp [toList]

theorem toList_getElem? {T : Type} (s : ArrayDeque T) (i : Nat)
    (hi : i < s.size) : s.toList[i]? = some (s.elemAt i) := by
  simp [toList, List.getElem?_map, List.getElem?_range, hi]

/-! ## Characterization of `_resize` -/

/-- `_resize` to a power-of-two capacity at least the current one and at
most `MAX_CAPACITY` succeeds, preserves the size and every logical
element, keeps the invariant; in the non-wrap case the head and every
existing physical slot are untouched, in the wrap case the elements are
copied in logical order to slots `0, …, size - 1` and the head becomes 0. -/
theorem resize_spec {T : Type} (s : ArrayDeque T) (h : s.Inv) (k : Nat)
    (cap2 : Nat) (hcap : cap2 = 2 ^ k) (hge : s.buffer.length ≤ cap2)
    (hmax : cap2 ≤ MAX_CAPACITY) :
    ∃ s', s._resize cap2 = .ok s' ∧ s'.Inv ∧
      s'.size = s.size ∧ s'.buffer.length = cap2 ∧ s'.indexMask = cap2 - 1 ∧
      (∀ i, i < s.size → s'.elemAt i = s.elemAt i) ∧
      (s.head + s.size ≤ s.buffer.length →
        s'.head = s.head ∧
        ∀ j, j < s.buffer.length →
          s'.buffer.getD j none = s.buffer.getD j none) ∧
      (s.buffer.length < s.head + s.size →
        s'.head = 0 ∧ ∀ i, i < s.size → s'.buffer.getD i none = s.elemAt i) := by
  have hcap_pos : 0 < cap2 := by
    rw [hcap]; exact Nat.pos_pow_of_pos k (by norm_num)
  have hhl := h.head_lt
  have hsl := h.size_le
  have hassert : assertCapacityValid cap2 = .ok () := by
    unfold assertCapacityValid
    rw [if_neg (by omega)]
  unfold _resize
  rw [hassert]
  by_cases hnw : s.head + s.size ≤ s.buffer.length
  · -- non-wrap: the buffer is padded in place
    rw [if_pos hnw]
    refine ⟨_, rfl, ?_⟩
    have hbuf : s.buffer.takeD cap2 none =
        s.buffer ++ List.replicate (cap2 - s.buffer.length) none :=
      takeD_grow s.buffer cap2 hge
    have hlen : (s.buffer.takeD cap2 none).length = cap2 := by
      rw [hbuf]; simp; omega
    have hpres : ∀ j, j < s.buffer.length →
        (s.buffer.takeD cap2 none).getD j none = s.buffer.getD j none := by
      intro j hj
      rw [hbuf]; exact getD_append_left _ _ j hj
    have hhigh : ∀ j, s.buffer.length ≤ j →
        (s.buffer.takeD cap2 none).getD j none = none := by
      intro j hj
      rw [hbuf]; exact getD_pad _ _ j hj
    have hel : ∀ i, i < s.size →
        ({ s with buffer := s.buffer.takeD cap2 none,
                  indexMask := cap2 - 1 } : ArrayDeque T).elemAt i =
          s.elemAt i := by
      intro i hi
      show (s.buffer.takeD cap2 none).getD
          ((s.head + i) % (s.buffer.takeD cap2 none).length) none = s.elemAt i
      have hin : s.head + i < s.buffer.length := by omega
      rw [hlen, Nat.mod_eq_of_lt (by omega), hpres _ hin]
      unfold elemAt
      rw [Nat.mod_eq_of_lt hin]
    refine ⟨?_, rfl, by rw [hlen], rfl, hel, fun _ => ⟨rfl, hpres⟩,
      fun hcontra => absurd hnw (by omega)⟩
    constructor
    · exact ⟨k, by rw [hlen, hcap]⟩
    · show cap2 - 1 = (s.buffer.takeD cap2 none).length - 1
      rw [hlen]
    · show s.head < (s.buffer.takeD cap2 none).length
      rw [hlen]; omega
    · show s.size ≤ (s.buffer.takeD cap2 none).length
      rw [hlen]; omega
    · intro i hi
      rw [hel i hi]
      exact h.live i hi
    · intro j hj hnl
      dsimp only at hj hnl
      rw [hlen] at hj hnl
      by_cases hjl : j < s.buffer.length
      · rw [hpres j hjl]
        refine h.dead j hjl ?_
        intro i hi
        have hmodl : (s.head + i) % s.buffer.length = s.head + i :=
          Nat.mod_eq_of_lt (by omega)
        have hmodc : (s.head + i) % cap2 = s.head + i :=
          Nat.mod_eq_of_lt (by omega)
        have hne := hnl i hi
        rw [hmodc] at hne
        rw [hmodl]
        exact hne
      · exact hhigh j (by omega)
  · -- wrap: the elements are relocated to the start of a fresh buffer
    rw [if_neg hnw]
    refine ⟨_, rfl, ?_⟩
    have hsz : s.size ≤ cap2 := le_trans h.size_le hge
    have hbuf : s.relocate cap2 =
        (List.range s.size).map s.elemAt ++
          List.replicate (cap2 - s.size) none := by
      unfold relocate
      rw [foldl_set_range _ s.size cap2 hsz]
      congr 1
      refine List.map_congr_left ?_
      intro i _
      rw [h.and_mask]
      rfl
    have hlen : (s.relocate cap2).length = cap2 := by
      rw [hbuf]; simp; omega
    have hlow : ∀ i, i < s.size → (s.relocate cap2).getD i none = s.elemAt i := by
      intro i hi
      rw [hbuf, getD_append_left _ _ i (by simpa using hi), getD_map_range _ _ i hi]
    have hhigh : ∀ j, s.size ≤ j → (s.relocate cap2).getD j none = none := by
      intro j hj
      rw [hbuf]
      exact getD_pad _ _ j (by simpa using hj)
    have hel : ∀ i, i < s.size →
        ({ size := s.size, head := 0, buffer := s.relocate cap2,
           indexMask := cap2 - 1 } : ArrayDeque T).elemAt i = s.elemAt i := by
      intro i hi
      show (s.relocate cap2).getD ((0 + i) % (s.relocate cap2).length) none =
        s.elemAt i
      rw [hlen, Nat.zero_add, Nat.mod_eq_of_lt (by omega), hlow i hi]
    refine ⟨?_, rfl, by rw [hlen], rfl, hel,
      fun hcontra => absurd hcontra (by omega), fun _ => ⟨rfl, hlow⟩⟩
    constructor
    · exact ⟨k, by rw [hlen, hcap]⟩
    · show cap2 - 1 = (s.relocate cap2).length - 1
      rw [hlen]
    · show 0 < (s.relocate cap2).length
      rw [hlen]; omega
    · show s.size ≤ (s.relocate cap2).length
      rw [hlen]; omega
    · intro i hi
      rw [hel i hi]
      exact h.live i hi
    · intro j hj hnl
      dsimp only at hj hnl
      rw [hlen] at hj hnl
      refine hhigh j ?_
      by_contra hjs
      push_neg at hjs
      have hne := hnl j hjs
      rw [Nat.zero_add, Nat.mod_eq_of_lt (by omega)] at hne
      exact hne rfl

/-! ## Characterization of the insertion and removal operations -/

theorem getD_set_self {T : Type} (l : List (Option T)) (j : Nat)
    (v : Option T) (hj : j < l.length) : (l.set j v).getD j none = v := by
  rw [getD_def, List.getElem?_set_self hj]
  rfl

theorem getD_set_other {T : Type} (l : List (Option T)) (i j : Nat)
    (v : Option T) (hij : i ≠ j) : (l.set i v).getD j none = l.getD j none := by
  rw [getD_def, List.getElem?_set_ne hij, getD_def]

theorem toList_snoc {T : Type} (s s' : ArrayDeque T) (v : T)
    (hsz : s'.size = s.size + 1)
    (hpres : ∀ i, i < s.size → s'.elemAt i = s.elemAt i)
    (hlast : s'.elemAt s.size = some v) :
    s'.toList = s.toList ++ [some v] := by
  unfold toList
  rw [hsz, List.range_succ, List.map_append]
  congr 1
  · exact List.map_congr_left (fun i hi => hpres i (List.mem_range.mp hi))
  · simp [hlast]

/-- Effect of the tail-write step of `push` when there is room. -/
theorem write_tail_spec {T : Type} (s s' : ArrayDeque T) (h : s.Inv)
    (hlt : s.size < s.buffer.length) (v : T)
    (hs' : s' = { s with
      buffer := s.buffer.set ((s.head + s.size) &&& s.indexMask) (some v),
      size := s.size + 1 }) :
    s'.Inv ∧ s'.buffer.length = s.buffer.length ∧ s'.head = s.head ∧
      s'.size = s.size + 1 ∧
      (∀ i, i < s.size → s'.elemAt i = s.elemAt i) ∧
      s'.elemAt s.size = some v := by
  have hhl := h.head_lt
  have hmask := h.and_mask (s.head + s.size)
  have htlt : (s.head + s.size) % s.buffer.length < s.buffer.length :=
    h.slot_lt _
  have hlen : s'.buffer.length = s.buffer.length := by
    rw [hs']; simp
  have hpres : ∀ i, i < s.size → s'.elemAt i = s.elemAt i := by
    intro i hi
    unfold elemAt
    rw [hs']
    dsimp only
    rw [List.length_set, hmask]
    refine getD_set_other _ _ _ _ ?_
    intro hcontra
    have := mod_inj (n := s.buffer.length) hlt (by omega) hcontra
    omega
  have hlast : s'.elemAt s.size = some v := by
    unfold elemAt
    rw [hs']
    dsimp only
    rw [List.length_set, hmask]
    exact getD_set_self _ _ _ htlt
  refine ⟨?_, hlen, by rw [hs'], by rw [hs'], hpres, hlast⟩
  constructor
  · rw [hlen]; exact h.pow2
  · rw [hlen, hs']; exact h.mask_eq
  · rw [hlen, hs']; exact hhl
  · rw [hlen, hs']; dsimp only; omega
  · intro i hi
    rw [hs'] at hi
    dsimp only at hi
    rcases Nat.lt_succ_iff_lt_or_eq.mp hi with hi | hi
    · rw [hpres i hi]; exact h.live i hi
    · rw [hi, hlast]; simp
  · intro j hj hnl
    rw [hlen] at hj
    rw [hs'] at hnl ⊢
    dsimp only at hnl ⊢
    rw [List.length_set] at hnl
    have hjt : j ≠ (s.head + s.size) % s.buffer.length :=
      hnl s.size (by omega)
    rw [hmask, getD_set_other _ _ _ _ (fun hc => hjt hc.symm)]
    refine h.dead j hj ?_
    intro i hi
    exact hnl i (by omega)

/-- Effect of the head-write step of `unshift` when there is room. -/
theorem write_head_spec {T : Type} (s s' : ArrayDeque T) (h : s.Inv)
    (hlt : s.size < s.buffer.length) (v : T)
    (hs' : s' = { s with
      buffer := s.buffer.set (decAnd s.head s.indexMask) (some v),
      head := decAnd s.head s.indexMask, size := s.size + 1 }) :
    s'.Inv ∧ s'.buffer.length = s.buffer.length ∧ s'.size = s.size + 1 ∧
      s'.elemAt 0 = some v ∧
      (∀ i, i < s.size → s'.elemAt (i + 1) = s.elemAt i) := by
  have hhl := h.head_lt
  have hpos := h.len_pos
  have hdec := h.decAnd_eq s.head
  have hnh : decAnd s.head s.indexMask =
      (s.head + s.buffer.length - 1) % s.buffer.length := hdec
  have hnhlt : (s.head + s.buffer.length - 1) % s.buffer.length <
      s.buffer.length := h.slot_lt _
  have hlen : s'.buffer.length = s.buffer.length := by
    rw [hs']; simp
  have hslot : ∀ i, ((s.head + s.buffer.length - 1) % s.buffer.length + (i + 1)) %
      s.buffer.length = (s.head + i) % s.buffer.length := by
    intro i
    rw [Nat.mod_add_mod]
    have : s.head + s.buffer.length - 1 + (i + 1) =
        s.head + i + s.buffer.length := by omega
    rw [this, Nat.add_mod_right]
  have hfirst : s'.elemAt 0 = some v := by
    unfold elemAt
    rw [hs']
    dsimp only
    rw [List.length_set, hnh, Nat.add_zero,
      Nat.mod_eq_of_lt hnhlt]
    exact getD_set_self _ _ _ hnhlt
  have hpres : ∀ i, i < s.size → s'.elemAt (i + 1) = s.elemAt i := by
    intro i hi
    unfold elemAt
    rw [hs']
    dsimp only
    rw [List.length_set, hnh, hslot i]
    refine getD_set_other _ _ _ _ ?_
    intro hcontra
    have h1 : ((s.head + s.buffer.length - 1) % s.buffer.length + 0) %
        s.buffer.length = (s.head + i) % s.buffer.length := by
      rwa [Nat.add_zero, Nat.mod_eq_of_lt hnhlt]
    have h2 : ((s.head + s.buffer.length - 1) % s.buffer.length + 0) %
        s.buffer.length = ((s.head + s.buffer.length - 1) % s.buffer.length +
          (i + 1)) % s.buffer.length := by
      rw [h1, hslot i]
    have := mod_inj (n := s.buffer.length) (by omega)
      (by omega : i + 1 < s.buffer.length) h2
    omega
  refine ⟨?_, hlen, by rw [hs'], hfirst, hpres⟩
  constructor
  · rw [hlen]; exact h.pow2
  · rw [hlen, hs']; exact h.mask_eq
  · rw [hlen, hs']; dsimp only; rw [hnh]; exact hnhlt
  · rw [hlen, hs']; dsimp only; omega
  · intro i hi
    rw [hs'] at hi
    dsimp only at hi
    match i, hi with
    | 0, _ => rw [hfirst]; simp
    | i + 1, hi =>
      rw [hpres i (by omega)]
      exact h.live i (by omega)
  · intro j hj hnl
    rw [hlen] at hj
    rw [hs'] at hnl ⊢
    dsimp only at hnl ⊢
    rw [List.length_set] at hnl
    have hjnh : j ≠ (s.head + s.buffer.length - 1) % s.buffer.length := by
      have := hnl 0 (by omega)
      rw [hnh, Nat.add_zero, Nat.mod_eq_of_lt hnhlt] at this
      exact this
    rw [hnh, getD_set_other _ _ _ _ (fun hc => hjnh hc.symm)]
    refine h.dead j hj ?_
    intro i hi
    have := hnl (i + 1) (by omega)
    rw [hnh, hslot i] at this
    exact this

/-- `push` on a full deque whose doubling would exceed `MAX_CAPACITY`
throws the `RangeError` of `_assertCapacityValid`, before any mutation. -/
theorem push_err {T : Type} (s : ArrayDeque T) (v : T)
    (hfull : s.size = s.buffer.length)
    (hover : MAX_CAPACITY < s.buffer.length * 2) :
    s.push v = .error (capacityExceededMsg (s.buffer.length * 2)) := by
  unfold push _resize assertCapacityValid
  rw [if_pos hfull, if_pos hover]

/-- `unshift` on a full deque whose doubling would exceed `MAX_CAPACITY`
throws the `RangeError` of `_assertCapacityValid`, before any mutation. -/
theorem unshift_err {T : Type} (s : ArrayDeque T) (v : T)
    (hfull : s.size = s.buffer.length)
    (hover : MAX_CAPACITY < s.buffer.length * 2) :
    s.unshift v = .error (capacityExceededMsg (s.buffer.length * 2)) := by
  unfold unshift _resize assertCapacityValid
  rw [if_pos hfull, if_pos hover]

/-- `push` succeeds whenever the doubling (if any) stays within
`MAX_CAPACITY`; it keeps the invariant and appends the value at the
tail. -/
theorem push_spec' {T : Type} (s : ArrayDeque T) (h : s.Inv) (v : T)
    (hgrow : s.size = s.buffer.length →
      s.buffer.length * 2 ≤ MAX_CAPACITY) :
    ∃ s', s.push v = .ok s' ∧ s'.Inv ∧ s'.size = s.size + 1 ∧
      (∀ i, i < s.size → s'.elemAt i = s.elemAt i) ∧
      s'.elemAt s.size = some v ∧ s'.toList = s.toList ++ [some v] := by
  by_cases hfull : s.size = s.buffer.length
  · obtain ⟨k, hk⟩ := h.pow2
    have hcap : s.buffer.length * 2 = 2 ^ (k + 1) := by
      rw [hk]; ring
    have hmax : s.buffer.length * 2 ≤ MAX_CAPACITY := hgrow hfull
    obtain ⟨s₁, hres, hinv₁, hsz₁, hlen₁, _, hel₁, _, _⟩ :=
      resize_spec s h (k + 1) (s.buffer.length * 2) hcap (by omega) hmax
    have hlt₁ : s₁.size < s₁.buffer.length := by
      have hlp := h.len_pos
      rw [hsz₁, hlen₁]
      omega
    obtain ⟨hinv', hlen', hhead', hsize', hpres', hlast'⟩ :=
      write_tail_spec s₁ _ hinv₁ hlt₁ v rfl
    refine ⟨_, ?_, hinv', by omega, ?_, ?_, ?_⟩
    · unfold push
      rw [if_pos hfull, hres]
    · intro i hi
      rw [hpres' i (by omega), hel₁ i hi]
    · rw [← hsz₁]
      exact hlast'
    · refine toList_snoc s _ v (by omega) ?_ ?_
      · intro i hi
        rw [hpres' i (by omega), hel₁ i hi]
      · rw [← hsz₁]
        exact hlast'
  · have hlt : s.size < s.buffer.length := lt_of_le_of_ne h.size_le hfull
    obtain ⟨hinv', hlen', hhead', hsize', hpres', hlast'⟩ :=
      write_tail_spec s _ h hlt v rfl
    refine ⟨_, ?_, hinv', hsize', hpres', hlast', ?_⟩
    · unfold push
      rw [if_neg hfull]
    · exact toList_snoc s _ v hsize' hpres' hlast'

/-- `unshift` succeeds whenever the doubling (if any) stays within
`MAX_CAPACITY`; it keeps the invariant and prepends the value at the
head. -/
theorem unshift_spec' {T : Type} (s : ArrayDeque T) (h : s.Inv) (v : T)
    (hgrow : s.size = s.buffer.length →
      s.buffer.length * 2 ≤ MAX_CAPACITY) :
    ∃ s', s.unshift v = .ok s' ∧ s'.Inv ∧ s'.size = s.size + 1 ∧
      s'.elemAt 0 = some v ∧
      (∀ i, i < s.size → s'.elemAt (i + 1) = s.elemAt i) := by
  by_cases hfull : s.size = s.buffer.length
  · obtain ⟨k, hk⟩ := h.pow2
    have hcap : s.buffer.length * 2 = 2 ^ (k + 1) := by
      rw [hk]; ring
    have hmax : s.buffer.length * 2 ≤ MAX_CAPACITY := hgrow hfull
    obtain ⟨s₁, hres, hinv₁, hsz₁, hlen₁, _, hel₁, _, _⟩ :=
      resize_spec s h (k + 1) (s.buffer.length * 2) hcap (by omega) hmax
    have hlt₁ : s₁.size < s₁.buffer.length := by
      have hlp := h.len_pos
      rw [hsz₁, hlen₁]
      omega
    obtain ⟨hinv', hlen', hsize', hfirst', hpres'⟩ :=
      write_head_spec s₁ _ hinv₁ hlt₁ v rfl
    refine ⟨_, ?_, hinv', by omega, hfirst', ?_⟩
    · unfold unshift
      rw [if_pos hfull, hres]
    · intro i hi
      rw [hpres' i (by omega), hel₁ i hi]
  · have hlt : s.size < s.buffer.length := lt_of_le_of_ne h.size_le hfull
    obtain ⟨hinv', hlen', hsize', hfirst', hpres'⟩ :=
      write_head_spec s _ h hlt v rfl
    refine ⟨_, ?_, hinv', hsize', hfirst', hpres'⟩
    unfold unshift
    rw [if_neg hfull]

theorem elemAt_zero {T : Type} (s : ArrayDeque T) (h : s.Inv) :
    s.elemAt 0 = s.buffer.getD s.head none := by
  unfold elemAt
  rw [Nat.add_zero, Nat.mod_eq_of_lt h.head_lt]

/-- `shift` on a non-empty well-formed deque returns the first element,
clears the vacated head slot, and keeps the invariant. -/
theorem shift_spec {T : Type} (s : ArrayDeque T) (h : s.Inv)
    (hsz : s.size ≠ 0) :
    s.shift.1 = s.elemAt 0 ∧ s.shift.2.Inv ∧ s.shift.2.size = s.size - 1 ∧
      s.shift.2.buffer.length = s.buffer.length ∧
      (∀ i, i < s.size - 1 → s.shift.2.elemAt i = s.elemAt (i + 1)) ∧
      s.shift.2.buffer.getD s.head none = none ∧
      s.shift.2.toList = s.toList.tail := by
  have hhl := h.head_lt
  have hsl := h.size_le
  have hpos := h.len_pos
  have hs1 : s.shift.1 = s.buffer.getD s.head none := by
    unfold shift shiftUnchecked
    rw [if_neg hsz]
  have hs2 : s.shift.2 = { s with
      buffer := s.buffer.set s.head none,
      head := (s.head + 1) &&& s.indexMask,
      size := s.size - 1 } := by
    unfold shift shiftUnchecked
    rw [if_neg hsz]
  have hlen : s.shift.2.buffer.length = s.buffer.length := by
    rw [hs2]; simp
  have hslot : ∀ i, (((s.head + 1) &&& s.indexMask) + i) % s.buffer.length =
      (s.head + (i + 1)) % s.buffer.length := by
    intro i
    rw [h.and_mask, Nat.mod_add_mod]
    congr 1
    omega
  have hne : ∀ i, i + 1 < s.size →
      s.head ≠ (s.head + (i + 1)) % s.buffer.length := by
    intro i hi hcontra
    have h0 : (s.head + 0) % s.buffer.length =
        (s.head + (i + 1)) % s.buffer.length := by
      rw [Nat.add_zero, Nat.mod_eq_of_lt hhl]
      exact hcontra
    have := mod_inj (n := s.buffer.length) (by omega) (by omega) h0
    omega
  have hpres : ∀ i, i < s.size - 1 →
      s.shift.2.elemAt i = s.elemAt (i + 1) := by
    intro i hi
    unfold elemAt
    rw [hs2]
    dsimp only
    rw [List.length_set, hslot i,
      getD_set_other _ _ _ _ (hne i (by omega))]
  have hclear : s.shift.2.buffer.getD s.head none = none := by
    rw [hs2]
    exact getD_set_self _ _ _ hhl
  refine ⟨by rw [hs1, elemAt_zero s h], ?_, by rw [hs2], hlen, hpres, hclear, ?_⟩
  · constructor
    · rw [hlen]; exact h.pow2
    · rw [hlen, hs2]; exact h.mask_eq
    · rw [hlen, hs2]; dsimp only
      rw [h.and_mask]
      exact h.slot_lt _
    · rw [hlen, hs2]; dsimp only; omega
    · intro i hi
      rw [hs2] at hi
      dsimp only at hi
      rw [hpres i hi]
      exact h.live (i + 1) (by omega)
    · intro j hj hnl
      rw [hlen] at hj
      rw [hs2] at hnl ⊢
      dsimp only at hnl ⊢
      rw [List.length_set] at hnl
      by_cases hjh : j = s.head
      · rw [hjh]
        exact getD_set_self _ _ _ hhl
      · rw [getD_set_other _ _ _ _ (fun hc => hjh hc.symm)]
        refine h.dead j hj ?_
        intro i hi
        match i, hi with
        | 0, _ =>
          rw [Nat.add_zero, Nat.mod_eq_of_lt hhl]
          exact fun hc => hjh hc
        | i + 1, hi =>
          have := hnl i (by omega)
          rw [hslot i] at this
          exact this
  · refine List.ext_getElem? ?_
    intro n
    by_cases hn : n < s.size - 1
    · rw [toList_getElem? _ n (by rw [hs2]; exact hn), List.getElem?_tail,
        toList_getElem? s (n + 1) (by omega), hpres n hn]
    · have h1 : s.shift.2.toList.length ≤ n := by
        rw [toList_length, hs2]
        dsimp only
        omega
      have h2 : s.toList.tail.length ≤ n := by
        rw [List.length_tail, toList_length]
        omega
      rw [List.getElem?_eq_none h1, List.getElem?_eq_none h2]

/-- `pop` on a non-empty well-formed deque returns the last element,
clears the vacated tail slot, and keeps the invariant. -/
theorem pop_spec {T : Type} (s : ArrayDeque T) (h : s.Inv)
    (hsz : s.size ≠ 0) :
    s.pop.1 = s.elemAt (s.size - 1) ∧ s.pop.2.Inv ∧
      s.pop.2.size = s.size - 1 ∧ s.pop.2.head = s.head ∧
      s.pop.2.buffer.length = s.buffer.length ∧
      (∀ i, i < s.size - 1 → s.pop.2.elemAt i = s.elemAt i) ∧
      s.pop.2.buffer.getD ((s.head + (s.size - 1)) % s.buffer.length) none =
        none ∧
      s.pop.2.toList = s.toList.dropLast := by
  have hhl := h.head_lt
  have hsl := h.size_le
  have hpos := h.len_pos
  have htail : decAnd (s.head + s.size) s.indexMask =
      (s.head + (s.size - 1)) % s.buffer.length := by
    rw [h.decAnd_eq]
    have harith : s.head + s.size + s.buffer.length - 1 =
        s.head + (s.size - 1) + s.buffer.length := by omega
    rw [harith, Nat.add_mod_right]
  have htlt : (s.head + (s.size - 1)) % s.buffer.length < s.buffer.length :=
    h.slot_lt _
  have hs1 : s.pop.1 =
      s.buffer.getD (decAnd (s.head + s.size) s.indexMask) none := by
    unfold pop popUnchecked
    rw [if_neg hsz]
  have hs2 : s.pop.2 = { s with
      buffer := s.buffer.set (decAnd (s.head + s.size) s.indexMask) none,
      size := s.size - 1 } := by
    unfold pop popUnchecked
    rw [if_neg hsz]
  have hlen : s.pop.2.buffer.length = s.buffer.length := by
    rw [hs2]; simp
  have hne : ∀ i, i < s.size - 1 →
      (s.head + (s.size - 1)) % s.buffer.length ≠
        (s.head + i) % s.buffer.length := by
    intro i hi hcontra
    have := mod_inj (n := s.buffer.length) (by omega) (by omega) hcontra
    omega
  have hpres : ∀ i, i < s.size - 1 → s.pop.2.elemAt i = s.elemAt i := by
    intro i hi
    unfold elemAt
    rw [hs2]
    dsimp only
    rw [List.length_set, htail, getD_set_other _ _ _ _ (hne i hi)]
  have hclear : s.pop.2.buffer.getD
      ((s.head + (s.size - 1)) % s.buffer.length) none = none := by
    rw [hs2]
    dsimp only
    rw [htail]
    exact getD_set_self _ _ _ htlt
  have hlast : s.pop.1 = s.elemAt (s.size - 1) := by
    unfold elemAt
    rw [hs1, htail]
  refine ⟨hlast, ?_, by rw [hs2], by rw [hs2], hlen, hpres, hclear, ?_⟩
  · constructor
    · rw [hlen]; exact h.pow2
    · rw [hlen, hs2]; exact h.mask_eq
    · rw [hlen, hs2]; exact hhl
    · rw [hlen, hs2]; dsimp only; omega
    · intro i hi
      rw [hs2] at hi
      dsimp only at hi
      rw [hpres i hi]
      exact h.live i (by omega)
    · intro j hj hnl
      rw [hlen] at hj
      rw [hs2] at hnl ⊢
      dsimp only at hnl ⊢
      rw [List.length_set] at hnl
      rw [htail]
      by_cases hjt : j = (s.head + (s.size - 1)) % s.buffer.length
      · rw [hjt]
        exact getD_set_self _ _ _ htlt
      · rw [getD_set_other _ _ _ _ (fun hc => hjt hc.symm)]
        refine h.dead j hj ?_
        intro i hi
        by_cases hilast : i = s.size - 1
        · rw [hilast]
          exact fun hc => hjt hc
        · exact hnl i (by omega)
  · have hrange : List.range s.size =
        List.range (s.size - 1) ++ [s.size - 1] := by
      have hsplit : s.size = (s.size - 1) + 1 := by omega
      conv_lhs => rw [hsplit]
      rw [List.range_succ]
    have hdrop : s.toList.dropLast =
        (List.range (s.size - 1)).map s.elemAt := by
      unfold toList
      rw [hrange, List.map_append]
      exact List.dropLast_concat
    rw [hdrop]
    refine List.ext_getElem? ?_
    intro n
    by_cases hn : n < s.size - 1
    · rw [toList_getElem? _ n (by rw [hs2]; exact hn), List.getElem?_map,
        List.getElem?_range hn, hpres n hn]
      rfl
    · have h1 : s.pop.2.toList.length ≤ n := by
        rw [toList_length, hs2]
        dsimp only
        omega
      rw [List.getElem?_eq_none h1,
        List.getElem?_eq_none (by simpa using hn)]

/-- On a well-formed deque with fewer than `MAX_CAPACITY` elements, the
doubling required by a full insertion stays within the ceiling. -/
theorem grow_ok_of_size_lt {T : Type} (s : ArrayDeque T) (h : s.Inv)
    (hsz : s.size < MAX_CAPACITY) :
    s.size = s.buffer.length → s.buffer.length * 2 ≤ MAX_CAPACITY := by
  intro hfull
  obtain ⟨k, hk⟩ := h.pow2
  have hk31 : k < 31 := by
    have hlt : (2 : Nat) ^ k < 2 ^ 31 := by
      rw [← hk, ← hfull]; exact hsz
    exact (Nat.pow_lt_pow_iff_right (by norm_num)).mp hlt
  have hcap : s.buffer.length * 2 = 2 ^ (k + 1) := by
    rw [hk]; ring
  rw [hcap]
  show (2 : Nat) ^ (k + 1) ≤ 2 ^ 31
  exact Nat.pow_le_pow_right (by norm_num) (by omega)

/-- Corollary of `push_spec'`: any number of elements below `MAX_CAPACITY`
can be pushed. -/
theorem push_spec {T : Type} (s : ArrayDeque T) (h : s.Inv) (v : T)
    (hsz : s.size < MAX_CAPACITY) :
    ∃ s', s.push v = .ok s' ∧ s'.Inv ∧ s'.size = s.size + 1 ∧
      (∀ i, i < s.size → s'.elemAt i = s.elemAt i) ∧
      s'.elemAt s.size = some v ∧ s'.toList = s.toList ++ [some v] :=
  push_spec' s h v (grow_ok_of_size_lt s h hsz)

/-- A successful `push` on a well-formed deque appends the value. -/
theorem push_ok_char {T : Type} (s s' : ArrayDeque T) (h : s.Inv) (v : T)
    (hok : s.push v = .ok s') :
    s'.Inv ∧ s'.size = s.size + 1 ∧
      (∀ i, i < s.size → s'.elemAt i = s.elemAt i) ∧
      s'.elemAt s.size = some v ∧ s'.toList = s.toList ++ [some v] := by
  have hgrow : s.size = s.buffer.length →
      s.buffer.length * 2 ≤ MAX_CAPACITY := by
    intro hfull
    by_contra hover
    push_neg at hover
    rw [push_err s v hfull hover] at hok
    exact Except.noConfusion hok
  obtain ⟨s₁, hok₁, hprops⟩ := push_spec' s h v hgrow
  rw [hok₁] at hok
  injection hok with he
  rw [← he]
  exact hprops

/-- A successful `unshift` on a well-formed deque prepends the value. -/
theorem unshift_ok_char {T : Type} (s s' : ArrayDeque T) (h : s.Inv) (v : T)
    (hok : s.unshift v = .ok s') :
    s'.Inv ∧ s'.size = s.size + 1 ∧ s'.elemAt 0 = some v ∧
      (∀ i, i < s.size → s'.elemAt (i + 1) = s.elemAt i) := by
  have hgrow : s.size = s.buffer.length →
      s.buffer.length * 2 ≤ MAX_CAPACITY := by
    intro hfull
    by_contra hover
    push_neg at hover
    rw [unshift_err s v hfull hover] at hok
    exact Except.noConfusion hok
  obtain ⟨s₁, hok₁, hprops⟩ := unshift_spec' s h v hgrow
  rw [hok₁] at hok
  injection hok with he
  rw [← he]
  exact hprops

/-! ## Empty-deque behavior and the read/write accessors -/

/-- `shift` on an empty deque returns `undefined` and leaves the state
untouched (the guard fires before `shiftUnchecked`). -/
theorem shift_empty {T : Type} (s : ArrayDeque T) (hsz : s.size = 0) :
    s.shift = (none, s) := by
  unfold shift
  rw [if_pos hsz]

/-- `pop` on an empty deque returns `undefined` and leaves the state
untouched. -/
theorem pop_empty {T : Type} (s : ArrayDeque T) (hsz : s.size = 0) :
    s.pop = (none, s) := by
  unfold pop
  rw [if_pos hsz]

/-- `first` on a well-formed empty deque reads an empty slot. -/
theorem first_empty {T : Type} (s : ArrayDeque T) (h : s.Inv)
    (hsz : s.size = 0) : s.first = none := by
  unfold first
  exact h.dead s.head h.head_lt (fun i hi => absurd hi (by omega))

/-- `last` on a well-formed empty deque reads an empty slot. -/
theorem last_empty {T : Type} (s : ArrayDeque T) (h : s.Inv)
    (hsz : s.size = 0) : s.last = none := by
  unfold last
  rw [h.decAnd_eq]
  exact h.dead _ (h.slot_lt _) (fun i hi => absurd hi (by omega))

/-- `first` on a well-formed non-empty deque is the first element. -/
theorem first_nonempty {T : Type} (s : ArrayDeque T) (h : s.Inv) :
    s.first = s.elemAt 0 :=
  (elemAt_zero s h).symm

/-- `last` on a well-formed non-empty deque is the last element. -/
theorem last_nonempty {T : Type} (s : ArrayDeque T) (h : s.Inv)
    (hsz : s.size ≠ 0) : s.last = s.elemAt (s.size - 1) := by
  unfold last elemAt
  rw [h.decAnd_eq]
  congr 1
  have harith : s.head + s.size + s.buffer.length - 1 =
      s.head + (s.size - 1) + s.buffer.length := by omega
  rw [harith, Nat.add_mod_right]

/-- The JS normalization of a possibly negative index. -/
theorem norm_lt {T : Type} (s : ArrayDeque T) (index : Int)
    (hlo : -(s.size : Int) ≤ index) (hhi : index < (s.size : Int)) :
    (if index < 0 then index + s.size else index).toNat < s.size := by
  split <;> omega

/-- `get` on an in-range index reads the slot
`(head + normalizedIndex) mod capacity`. -/
theorem get_in_range {T : Type} (s : ArrayDeque T) (h : s.Inv) (index : Int)
    (hlo : -(s.size : Int) ≤ index) (hhi : index < (s.size : Int)) :
    s.get index =
      s.elemAt (if index < 0 then index + s.size else index).toNat := by
  unfold get getUnchecked getNonNegativeUnchecked elemAt
  rw [if_neg (by omega)]
  dsimp only
  rw [h.and_mask]

/-- `get` on an out-of-range index returns `undefined`. -/
theorem get_out_of_range {T : Type} (s : ArrayDeque T) (index : Int)
    (hout : index < -(s.size : Int) ∨ (s.size : Int) ≤ index) :
    s.get index = none := by
  unfold get
  rw [if_pos hout]

/-- `set` on an out-of-range index throws, before any mutation. -/
theorem set_out_of_range {T : Type} (s : ArrayDeque T) (index : Int) (v : T)
    (hout : index < -(s.size : Int) ∨ (s.size : Int) ≤ index) :
    s.set index v = .error (outOfRangeMsg index s.size) := by
  unfold set
  rw [if_pos hout]

/-- `set` on an in-range index replaces exactly that logical element. -/
theorem set_in_range {T : Type} (s : ArrayDeque T) (h : s.Inv) (index : Int)
    (v : T) (hlo : -(s.size : Int) ≤ index) (hhi : index < (s.size : Int)) :
    ∃ s', s.set index v = .ok s' ∧ s'.Inv ∧ s'.size = s.size ∧
      s'.head = s.head ∧ s'.buffer.length = s.buffer.length ∧
      s'.elemAt (if index < 0 then index + s.size else index).toNat =
        some v ∧
      (∀ j, j < s.size →
        j ≠ (if index < 0 then index + s.size else index).toNat →
        s'.elemAt j = s.elemAt j) := by
  have hhl := h.head_lt
  have hsl := h.size_le
  set n : Nat := (if index < 0 then index + s.size else index).toNat with hn
  have hns : n < s.size := norm_lt s index hlo hhi
  have hslot : (s.head + n) % s.buffer.length < s.buffer.length :=
    h.slot_lt _
  have hset : s.set index v = .ok (s.setUnchecked index v) := by
    unfold set
    rw [if_neg (by omega)]
  have hsu : s.setUnchecked index v = { s with
      buffer := s.buffer.set ((s.head + n) % s.buffer.length) (some v) } := by
    unfold setUnchecked setNonNegativeUnchecked
    dsimp only
    rw [← hn, h.and_mask]
  have hlen : (s.setUnchecked index v).buffer.length = s.buffer.length := by
    rw [hsu]; simp
  have hel : (s.setUnchecked index v).elemAt n = some v := by
    unfold elemAt
    rw [hsu]
    dsimp only
    rw [List.length_set]
    exact getD_set_self _ _ _ hslot
  have hpres : ∀ j, j < s.size → j ≠ n →
      (s.setUnchecked index v).elemAt j = s.elemAt j := by
    intro j hj hjn
    unfold elemAt
    rw [hsu]
    dsimp only
    rw [List.length_set]
    refine getD_set_other _ _ _ _ ?_
    intro hc
    exact hjn (mod_inj (n := s.buffer.length) (by omega) (by omega) hc).symm
  refine ⟨_, hset, ?_, by rw [hsu], by rw [hsu], hlen, hel, hpres⟩
  constructor
  · rw [hlen]; exact h.pow2
  · rw [hlen, hsu]; exact h.mask_eq
  · rw [hlen, hsu]; exact hhl
  · rw [hlen, hsu]; exact hsl
  · intro i hi
    rw [hsu] at hi
    dsimp only at hi
    by_cases hin : i = n
    · rw [hin, hel]; simp
    · rw [hpres i hi hin]; exact h.live i hi
  · intro j hj hnl
    rw [hlen] at hj
    rw [hsu] at hnl ⊢
    dsimp only at hnl ⊢
    rw [List.length_set] at hnl
    have hjslot : j ≠ (s.head + n) % s.buffer.length := hnl n hns
    rw [getD_set_other _ _ _ _ (fun hc => hjslot hc.symm)]
    exact h.dead j hj hnl

/-! ## The constructor and `ensureCapacity` -/

theorem pow2From_ge : ∀ (fuel p c : Nat), c - p ≤ fuel → 0 < p →
    c ≤ pow2From p c ∧ p ≤ pow2From p c := by
  intro fuel
  induction fuel with
  | zero =>
    intro p c hf hp
    unfold pow2From
    rw [if_neg (by omega), if_neg (by omega)]
    omega
  | succ fuel ih =>
    intro p c hf hp
    by_cases hpc : p < c
    · have hstep : pow2From p c = pow2From (p * 2) c := by
        rw [pow2From.eq_def]
        rw [if_neg (by omega), if_pos hpc]
      rw [hstep]
      have := ih (p * 2) c (by omega) (by omega)
      omega
    · unfold pow2From
      rw [if_neg (by omega), if_neg hpc]
      omega

theorem pow2From_pow2 : ∀ (fuel p c : Nat), c - p ≤ fuel →
    ∀ a, p = 2 ^ a → ∃ b, pow2From p c = 2 ^ b := by
  intro fuel
  induction fuel with
  | zero =>
    intro p c hf a ha
    have hp : 0 < p := by rw [ha]; exact Nat.pos_pow_of_pos a (by norm_num)
    unfold pow2From
    rw [if_neg (by omega), if_neg (by omega)]
    exact ⟨a, ha⟩
  | succ fuel ih =>
    intro p c hf a ha
    have hp : 0 < p := by rw [ha]; exact Nat.pos_pow_of_pos a (by norm_num)
    by_cases hpc : p < c
    · have hstep : pow2From p c = pow2From (p * 2) c := by
        rw [pow2From.eq_def]
        rw [if_neg (by omega), if_pos hpc]
      rw [hstep]
      exact ih (p * 2) c (by omega) (a + 1) (by rw [ha]; ring)
    · unfold pow2From
      rw [if_neg (by omega), if_neg hpc]
      exact ⟨a, ha⟩

theorem pow2From_min : ∀ (fuel p c : Nat), c - p ≤ fuel →
    ∀ a b, p = 2 ^ a → c ≤ 2 ^ b → p ≤ 2 ^ b → pow2From p c ≤ 2 ^ b := by
  intro fuel
  induction fuel with
  | zero =>
    intro p c hf a b ha hc hpb
    have hp : 0 < p := by rw [ha]; exact Nat.pos_pow_of_pos a (by norm_num)
    unfold pow2From
    rw [if_neg (by omega), if_neg (by omega)]
    exact hpb
  | succ fuel ih =>
    intro p c hf a b ha hc hpb
    have hp : 0 < p := by rw [ha]; exact Nat.pos_pow_of_pos a (by norm_num)
    by_cases hpc : p < c
    · have hstep : pow2From p c = pow2From (p * 2) c := by
        rw [pow2From.eq_def]
        rw [if_neg (by omega), if_pos hpc]
      rw [hstep]
      have hab : a < b := by
        have h2 : (2 : Nat) ^ a < 2 ^ b := by omega
        exact (Nat.pow_lt_pow_iff_right (by norm_num)).mp h2
      refine ih (p * 2) c (by omega) (a + 1) b (by rw [ha]; ring) hc ?_
      have h2 : (2 : Nat) ^ (a + 1) ≤ 2 ^ b :=
        Nat.pow_le_pow_right (by norm_num) (by omega)
      rw [ha]
      calc 2 ^ a * 2 = 2 ^ (a + 1) := by ring
        _ ≤ 2 ^ b := h2
    · unfold pow2From
      rw [if_neg (by omega), if_neg hpc]
      exact hpb

theorem growFrom_ge : ∀ (fuel p c : Nat), c - p ≤ fuel → 0 < p →
    c ≤ growFrom p c ∧ p < growFrom p c := by
  intro fuel
  induction fuel with
  | zero =>
    intro p c hf hp
    unfold growFrom
    rw [if_neg (by omega), if_neg (by omega)]
    omega
  | succ fuel ih =>
    intro p c hf hp
    by_cases hpc : p * 2 < c
    · have hstep : growFrom p c = growFrom (p * 2) c := by
        rw [growFrom.eq_def]
        rw [if_neg (by omega), if_pos hpc]
      rw [hstep]
      have := ih (p * 2) c (by omega) (by omega)
      omega
    · unfold growFrom
      rw [if_neg (by omega), if_neg hpc]
      omega

theorem growFrom_pow2 : ∀ (fuel p c : Nat), c - p ≤ fuel →
    ∀ a, p = 2 ^ a → ∃ b, growFrom p c = 2 ^ b := by
  intro fuel
  induction fuel with
  | zero =>
    intro p c hf a ha
    have hp : 0 < p := by rw [ha]; exact Nat.pos_pow_of_pos a (by norm_num)
    unfold growFrom
    rw [if_neg (by omega), if_neg (by omega)]
    exact ⟨a + 1, by rw [ha]; ring⟩
  | succ fuel ih =>
    intro p c hf a ha
    have hp : 0 < p := by rw [ha]; exact Nat.pos_pow_of_pos a (by norm_num)
    by_cases hpc : p * 2 < c
    · have hstep : growFrom p c = growFrom (p * 2) c := by
        rw [growFrom.eq_def]
        rw [if_neg (by omega), if_pos hpc]
      rw [hstep]
      exact ih (p * 2) c (by omega) (a + 1) (by rw [ha]; ring)
    · unfold growFrom
      rw [if_neg (by omega), if_neg hpc]
      exact ⟨a + 1, by rw [ha]; ring⟩

/-- The freshly constructed state is well-formed and empty. -/
theorem mkInv {T : Type} (cap k : Nat) (hk : cap = 2 ^ k) :
    ({ size := 0, head := 0, buffer := List.replicate cap none,
       indexMask := cap - 1 } : ArrayDeque T).Inv := by
  have hpos : 0 < cap := by
    rw [hk]; exact Nat.pos_pow_of_pos k (by norm_num)
  constructor
  · exact ⟨k, by simpa using hk⟩
  · simp
  · simpa using hpos
  · simp
  · intro i hi
    dsimp only at hi
    omega
  · intro j hj _
    rw [getD_def, List.getElem?_replicate]
    split <;> rfl

theorem mkDeque_none {T : Type} :
    mkDeque T none =
      .ok { size := 0, head := 0,
            buffer := List.replicate 16 none, indexMask := 15 } := by
  rfl

theorem mkDeque_some_ok {T : Type} (c : Nat)
    (hmax : pow2From 1 c ≤ MAX_CAPACITY) :
    mkDeque T (some c) =
      .ok { size := 0, head := 0,
            buffer := List.replicate (pow2From 1 c) none,
            indexMask := pow2From 1 c - 1 } := by
  unfold mkDeque
  dsimp only
  unfold assertCapacityValid
  rw [if_neg (by omega)]

theorem mkDeque_some_err {T : Type} (c : Nat)
    (hover : MAX_CAPACITY < pow2From 1 c) :
    mkDeque T (some c) = .error (capacityExceededMsg (pow2From 1 c)) := by
  unfold mkDeque
  dsimp only
  unfold assertCapacityValid
  rw [if_pos (by omega)]

theorem resize_err {T : Type} (s : ArrayDeque T) (cap2 : Nat)
    (hover : MAX_CAPACITY < cap2) :
    s._resize cap2 = .error (capacityExceededMsg cap2) := by
  unfold _resize assertCapacityValid
  rw [if_pos (by omega)]

/-- A successful `ensureCapacity` preserves the invariant, the size and
all logical elements. -/
theorem ensure_ok_char {T : Type} (s s' : ArrayDeque T) (h : s.Inv)
    (c : Nat) (hok : s.ensureCapacity c = .ok s') :
    s'.Inv ∧ s'.size = s.size ∧
      (∀ i, i < s.size → s'.elemAt i = s.elemAt i) := by
  unfold ensureCapacity at hok
  by_cases hle : c ≤ s.buffer.length
  · rw [if_pos hle] at hok
    injection hok with he
    rw [← he]
    exact ⟨h, rfl, fun i _ => rfl⟩
  · rw [if_neg hle] at hok
    obtain ⟨k, hk⟩ := h.pow2
    obtain ⟨b, hb⟩ := growFrom_pow2 c s.buffer.length c (by omega) k hk
    have hge := growFrom_ge c s.buffer.length c (by omega) h.len_pos
    have hmax : growFrom s.buffer.length c ≤ MAX_CAPACITY := by
      by_contra hover
      push_neg at hover
      rw [resize_err s _ hover] at hok
      exact Except.noConfusion hok
    obtain ⟨s₁, hres, hinv₁, hsz₁, _, _, hel₁, _⟩ :=
      resize_spec s h b _ hb (by omega) hmax
    rw [hres] at hok
    injection hok with he
    rw [← he]
    exact ⟨hinv₁, hsz₁, hel₁⟩

/-! ## Reachable states -/

theorem mkDeque_ok_char {T : Type} (c : Option Nat) (s : ArrayDeque T)
    (hok : mkDeque T c = .ok s) : s.Inv ∧ s.size = 0 := by
  cases c with
  | none =>
    rw [mkDeque_none] at hok
    injection hok with he
    rw [← he]
    exact ⟨mkInv 16 4 (by norm_num), rfl⟩
  | some c =>
    have hmax : pow2From 1 c ≤ MAX_CAPACITY := by
      by_contra hover
      push_neg at hover
      rw [mkDeque_some_err c hover] at hok
      exact Except.noConfusion hok
    rw [mkDeque_some_ok c hmax] at hok
    injection hok with he
    obtain ⟨b, hb⟩ := pow2From_pow2 c 1 c (by omega) 0 (by norm_num)
    rw [← he]
    exact ⟨mkInv _ b hb, rfl⟩

/-- Every public call preserves well-formedness. -/
theorem publicStep_inv {T : Type} {s s' : ArrayDeque T} (h : s.Inv)
    (hst : PublicStep s s') : s'.Inv := by
  cases hst with
  | push_ok v t hok => exact (push_ok_char _ _ h v hok).1
  | push_err v e _ => exact h
  | unshift_ok v t hok => exact (unshift_ok_char _ _ h v hok).1
  | unshift_err v e _ => exact h
  | shift =>
    by_cases hsz : s.size = 0
    · rw [shift_empty s hsz]
      exact h
    · exact (shift_spec s h hsz).2.1
  | pop =>
    by_cases hsz : s.size = 0
    · rw [pop_empty s hsz]
      exact h
    · exact (pop_spec s h hsz).2.1
  | set_ok i v t hok =>
    by_cases hout : i < -(s.size : Int) ∨ (s.size : Int) ≤ i
    · rw [set_out_of_range s i v hout] at hok
      exact Except.noConfusion hok
    · push_neg at hout
      obtain ⟨s₁, heq, hinv₁, _⟩ :=
        set_in_range s h i v (by omega) (by omega)
      rw [heq] at hok
      injection hok with he
      rw [← he]
      exact hinv₁
  | set_err i v e _ => exact h
  | ensure_ok c t hok => exact (ensure_ok_char _ _ h c hok).1
  | ensure_err c e _ => exact h

/-- Every state reachable through public calls is well-formed. -/
theorem reachable_inv {T : Type} {s : ArrayDeque T} (h : Reachable s) :
    s.Inv := by
  induction h with
  | base c s hmk => exact (mkDeque_ok_char c s hmk).1
  | step s s' _ hst ih => exact publicStep_inv ih hst

theorem elemAt_of_toList {T : Type} (s : ArrayDeque T) (i : Nat)
    (hi : i < s.size) (x : Option T) (hx : s.toList[i]? = some x) :
    s.elemAt i = x := by
  rw [toList_getElem? s i hi] at hx
  injection hx

end ArrayDeque

/-! ## BlockingQueue: invariant preservation -/

namespace BlockingQueue

theorem WF.values_size {T : Type} {q : BlockingQueue T} (h : q.WF) :
    q.values.size =
      q.history.length - min q.history.length q.nextId := by
  have hl := (ArrayDeque.toList_length q.values).symm
  rw [h.values_eq] at hl
  simpa using hl

theorem WF.resolves_size {T : Type} {q : BlockingQueue T} (h : q.WF) :
    q.resolves.size = q.nextId - min q.history.length q.nextId := by
  have hl := (ArrayDeque.toList_length q.resolves).symm
  rw [h.resolves_eq] at hl
  simpa using hl

theorem fresh_wf (T : Type) : (fresh T).WF := by
  constructor
  · exact ArrayDeque.mkInv 16 4 (by norm_num)
  · exact ArrayDeque.mkInv 16 4 (by norm_num)
  · rfl
  · rfl
  · rfl

/-- `enqueue` on a well-formed queue (with fewer than `MAX_CAPACITY`
produced values) succeeds: the value goes to the oldest waiter if one is
pending, and is buffered otherwise. -/
theorem enqueue_wf' {T : Type} (q : BlockingQueue T) (hwf : q.WF) (v : T)
    (hgrow : q.values.size = q.values.buffer.length →
      q.values.buffer.length * 2 ≤ MAX_CAPACITY) :
    ∃ q', q.enqueue v = .ok q' ∧ q'.WF ∧ q'.nextId = q.nextId ∧
      q'.history = q.history ++ [v] := by
  have hvsize := hwf.values_size
  have hrsize := hwf.resolves_size
  by_cases hr : q.resolves.size > 0
  · -- a waiter is pending: it gets the value directly
    have hm : min q.history.length q.nextId = q.history.length := by omega
    have hmD : min q.history.length q.nextId < q.nextId := by omega
    obtain ⟨hd1, hdinv, hdsz, hdlen, hdpres, hdclear, hdtl⟩ :=
      ArrayDeque.shift_spec q.resolves hwf.rinv (by omega)
    have hm0 : q.resolves.elemAt 0 =
        some (min q.history.length q.nextId) := by
      refine ArrayDeque.elemAt_of_toList _ 0 (by omega) _ ?_
      rw [hwf.resolves_eq]
      have hDm : q.nextId - min q.history.length q.nextId =
          (q.nextId - min q.history.length q.nextId - 1) + 1 := by omega
      rw [hDm, List.range'_succ]
      simp
    have hdq : q.resolves.dequeue =
        (some (min q.history.length q.nextId), q.resolves.shift.2) := by
      show q.resolves.shift = _
      rw [← hm0, ← hd1]
    refine ⟨{ q with
                resolves := q.resolves.shift.2,
                resolved := q.resolved ++
                  [(min q.history.length q.nextId, some v)],
                history := q.history ++ [v] }, ?_, ?_, rfl, rfl⟩
    · unfold enqueue
      rw [if_pos hr, hdq]
    · have hm' : min (q.history ++ [v]).length q.nextId =
          min q.history.length q.nextId + 1 := by
        simp only [List.length_append, List.length_cons, List.length_nil]
        omega
      refine ⟨hwf.vinv, hdinv, ?_, ?_, ?_⟩
      · show q.values.toList = _
        rw [hwf.values_eq]
        dsimp only
        rw [hm']
        have h1 : q.history.drop (min q.history.length q.nextId) = [] := by
          rw [hm]
          exact List.drop_length _
        have h2 : (q.history ++ [v]).drop
            (min q.history.length q.nextId + 1) = [] := by
          refine List.drop_eq_nil_of_le ?_
          simp only [List.length_append, List.length_cons, List.length_nil]
          omega
        rw [h1, h2]
      · show q.resolves.shift.2.toList = _
        rw [hdtl, hwf.resolves_eq]
        dsimp only
        rw [hm']
        have hDm : q.nextId - min q.history.length q.nextId =
            (q.nextId - (min q.history.length q.nextId + 1)) + 1 := by omega
        rw [hDm, List.range'_succ]
        simp
      · show q.resolved ++ _ = _
        rw [hwf.resolved_eq]
        dsimp only
        rw [hm', List.range_succ, List.map_append]
        congr 1
        · refine List.map_congr_left ?_
          intro j hj
          have hjm : j < min q.history.length q.nextId :=
            List.mem_range.mp hj
          rw [List.getElem?_append_left (by omega)]
        · simp only [List.map_cons, List.map_nil]
          have hidx : (q.history ++ [v])[min q.history.length q.nextId]? =
              some v := by
            rw [List.getElem?_append_right (by omega), hm]
            simp
          rw [hidx]
  · -- no waiter: the value is buffered
    have hm : min q.history.length q.nextId = q.nextId := by omega
    have hmE : q.nextId ≤ q.history.length := by omega
    obtain ⟨v', hok, hinv', hsz', hpres', hlast', htl'⟩ :=
      ArrayDeque.push_spec' q.values hwf.vinv v hgrow
    refine ⟨{ q with values := v', history := q.history ++ [v] },
      ?_, ?_, rfl, rfl⟩
    · unfold enqueue
      rw [if_neg (by omega)]
      rw [show q.values.enqueue v = Except.ok v' from hok]
    · have hm' : min (q.history ++ [v]).length q.nextId =
          min q.history.length q.nextId := by
        simp only [List.length_append, List.length_cons, List.length_nil]
        omega
      refine ⟨hinv', hwf.rinv, ?_, ?_, ?_⟩
      · show v'.toList = _
        rw [htl', hwf.values_eq]
        dsimp only
        rw [hm']
        rw [List.drop_append_of_le_length (by omega), List.map_append]
        rfl
      · show q.resolves.toList = _
        rw [hwf.resolves_eq]
        dsimp only
        rw [hm']
      · show q.resolved = _
        rw [hwf.resolved_eq]
        dsimp only
        rw [hm']
        refine List.map_congr_left ?_
        intro j hj
        have hjm : j < min q.history.length q.nextId := List.mem_range.mp hj
        rw [List.getElem?_append_left (by omega)]

/-- `dequeue` on a well-formed queue (with fewer than `MAX_CAPACITY`
requests so far) succeeds: the oldest buffered value resolves the new
promise immediately if one exists, and a waiter is registered otherwise. -/
theorem dequeue_wf' {T : Type} (q : BlockingQueue T) (hwf : q.WF)
    (hgrow : q.resolves.size = q.resolves.buffer.length →
      q.resolves.buffer.length * 2 ≤ MAX_CAPACITY) :
    ∃ r q', q.dequeue = .ok (r, q') ∧ q'.WF ∧
      q'.nextId = q.nextId + 1 ∧ q'.history = q.history := by
  have hvsize := hwf.values_size
  have hrsize := hwf.resolves_size
  by_cases hv : q.values.size > 0
  · -- a value is buffered: the promise resolves immediately
    have hm : min q.history.length q.nextId = q.nextId := by omega
    have hmE : min q.history.length q.nextId < q.history.length := by omega
    obtain ⟨hd1, hdinv, hdsz, hdlen, hdpres, hdclear, hdtl⟩ :=
      ArrayDeque.shift_spec q.values hwf.vinv (by omega)
    have hm0 : q.values.elemAt 0 =
        q.history[min q.history.length q.nextId]? := by
      refine ArrayDeque.elemAt_of_toList _ 0 (by omega) _ ?_
      rw [hwf.values_eq]
      obtain ⟨x, hx⟩ : ∃ x, q.history[min q.history.length q.nextId]? =
          some x := by
        refine ⟨q.history[min q.history.length q.nextId], ?_⟩
        exact List.getElem?_eq_getElem hmE
      rw [hx]
      have hdropnn : q.history.drop (min q.history.length q.nextId) =
          x :: q.history.drop (min q.history.length q.nextId + 1) := by
        rw [List.drop_eq_getElem_cons hmE]
        congr 1
        have := List.getElem?_eq_getElem hmE
        rw [hx] at this
        injection this with he
        exact he.symm
      rw [hdropnn]
      simp
    have hdq : q.values.dequeue =
        (q.history[min q.history.length q.nextId]?, q.values.shift.2) := by
      show q.values.shift = _
      rw [← hm0, ← hd1]
    refine ⟨some q.history[min q.history.length q.nextId]?,
      { q with
          values := q.values.shift.2,
          nextId := q.nextId + 1,
          resolved := q.resolved ++
            [(q.nextId, q.history[min q.history.length q.nextId]?)] },
      ?_, ?_, rfl, rfl⟩
    · unfold dequeue
      rw [if_pos hv, hdq]
    · have hm' : min q.history.length (q.nextId + 1) =
          min q.history.length q.nextId + 1 := by omega
      refine ⟨hdinv, hwf.rinv, ?_, ?_, ?_⟩
      · show q.values.shift.2.toList = _
        rw [hdtl, hwf.values_eq]
        dsimp only
        rw [hm', ← List.map_tail, List.tail_drop]
      · show q.resolves.toList = _
        rw [hwf.resolves_eq]
        dsimp only
        rw [hm']
        have h1 : q.nextId - min q.history.length q.nextId = 0 := by omega
        have h2 : q.nextId + 1 - (min q.history.length q.nextId + 1) = 0 := by
          omega
        rw [h1, h2]
        simp
      · show q.resolved ++ _ = _
        rw [hwf.resolved_eq]
        dsimp only
        rw [hm', List.range_succ, List.map_append]
        congr 2
        rw [hm]
  · -- no value buffered: a new waiter is registered
    have hm : min q.history.length q.nextId = q.history.length := by omega
    have hmD : q.history.length ≤ q.nextId := by omega
    obtain ⟨r', hok, hinv', hsz', hpres', hlast', htl'⟩ :=
      ArrayDeque.push_spec' q.resolves hwf.rinv q.nextId hgrow
    refine ⟨none,
      { q with resolves := r', nextId := q.nextId + 1 },
      ?_, ?_, rfl, rfl⟩
    · unfold dequeue
      rw [if_neg (by omega)]
      rw [show q.resolves.enqueue q.nextId = Except.ok r' from hok]
    · have hm' : min q.history.length (q.nextId + 1) =
          min q.history.length q.nextId := by omega
      refine ⟨hwf.vinv, hinv', ?_, ?_, ?_⟩
      · show q.values.toList = _
        rw [hwf.values_eq]
        dsimp only
        rw [hm']
      · show r'.toList = _
        rw [htl', hwf.resolves_eq]
        dsimp only
        rw [hm']
        have hsplit : q.nextId + 1 - min q.history.length q.nextId =
            (q.nextId - min q.history.length q.nextId) + 1 := by omega
        rw [hsplit, List.range'_1_concat, List.map_append]
        have heq2 : min q.history.length q.nextId +
            (q.nextId - min q.history.length q.nextId) = q.nextId := by
          omega
        rw [heq2]
        simp
      · show q.resolved = _
        rw [hwf.resolved_eq]
        dsimp only
        rw [hm']

/-- `enqueue` succeeds on a well-formed queue with fewer than
`MAX_CAPACITY` produced values. -/
theorem enqueue_wf {T : Type} (q : BlockingQueue T) (hwf : q.WF) (v : T)
    (hsz : q.history.length < MAX_CAPACITY) :
    ∃ q', q.enqueue v = .ok q' ∧ q'.WF ∧ q'.nextId = q.nextId ∧
      q'.history = q.history ++ [v] := by
  refine enqueue_wf' q hwf v
    (ArrayDeque.grow_ok_of_size_lt q.values hwf.vinv ?_)
  have := hwf.values_size
  omega

/-- `dequeue` succeeds on a well-formed queue with fewer than
`MAX_CAPACITY` requests so far. -/
theorem dequeue_wf {T : Type} (q : BlockingQueue T) (hwf : q.WF)
    (hD : q.nextId < MAX_CAPACITY) :
    ∃ r q', q.dequeue = .ok (r, q') ∧ q'.WF ∧
      q'.nextId = q.nextId + 1 ∧ q'.history = q.history := by
  refine dequeue_wf' q hwf
    (ArrayDeque.grow_ok_of_size_lt q.resolves hwf.rinv ?_)
  have := hwf.resolves_size
  omega

/-- A successful `enqueue` on a well-formed queue keeps well-formedness. -/
theorem enqueue_ok_wf {T : Type} (q q' : BlockingQueue T) (hwf : q.WF)
    (v : T) (hok : q.enqueue v = .ok q') :
    q'.WF ∧ q'.nextId = q.nextId ∧ q'.history = q.history ++ [v] := by
  have hgrow : q.values.size = q.values.buffer.length →
      q.values.buffer.length * 2 ≤ MAX_CAPACITY := by
    intro hfull
    by_contra hover
    push_neg at hover
    have herr := ArrayDeque.push_err q.values v hfull hover
    have hrs := hwf.resolves_size
    have hvs := hwf.values_size
    have hr0 : ¬q.resolves.size > 0 := by
      intro hr
      have hm : min q.history.length q.nextId = q.history.length := by omega
      have hlp := hwf.vinv.len_pos
      omega
    unfold enqueue at hok
    rw [if_neg hr0] at hok
    rw [show q.values.enqueue v = q.values.push v from rfl, herr] at hok
    exact Except.noConfusion hok
  obtain ⟨q₁, hok₁, hwf₁, hid₁, hh₁⟩ := enqueue_wf' q hwf v hgrow
  rw [hok₁] at hok
  injection hok with he
  rw [← he]
  exact ⟨hwf₁, hid₁, hh₁⟩

/-- A successful `dequeue` on a well-formed queue keeps well-formedness. -/
theorem dequeue_ok_wf {T : Type} (q q' : BlockingQueue T)
    (r : Option (Option T)) (hwf : q.WF)
    (hok : q.dequeue = .ok (r, q')) :
    q'.WF ∧ q'.nextId = q.nextId + 1 ∧ q'.history = q.history := by
  have hgrow : q.resolves.size = q.resolves.buffer.length →
      q.resolves.buffer.length * 2 ≤ MAX_CAPACITY := by
    intro hfull
    by_contra hover
    push_neg at hover
    have herr := ArrayDeque.push_err q.resolves q.nextId hfull hover
    have hrs := hwf.resolves_size
    have hvs := hwf.values_size
    have hv0 : ¬q.values.size > 0 := by
      intro hv
      have hlp := hwf.rinv.len_pos
      omega
    unfold dequeue at hok
    rw [if_neg hv0] at hok
    rw [show q.resolves.enqueue q.nextId = q.resolves.push q.nextId from rfl,
      herr] at hok
    exact Except.noConfusion hok
  obtain ⟨r₁, q₁, hok₁, hwf₁, hid₁, hh₁⟩ := dequeue_wf' q hwf hgrow
  rw [hok₁] at hok
  injection hok with he
  injection he with he1 he2
  rw [← he2]
  exact ⟨hwf₁, hid₁, hh₁⟩

theorem run_cons {T : Type} (q : BlockingQueue T) (op : Op T)
    (rest : List (Op T)) :
    run q (op :: rest) =
      match q.step op with
      | .ok q₁ => run q₁ rest
      | .error e => .error e := rfl

/-- Executing any call sequence from a well-formed state succeeds (as long
as the total number of calls keeps the internal sizes below
`MAX_CAPACITY`) and preserves well-formedness; the ghost history and the
number of `dequeue` calls accumulate. -/
theorem run_wf {T : Type} : ∀ (ops : List (Op T)) (q : BlockingQueue T),
    q.WF →
    q.history.length + ops.length ≤ MAX_CAPACITY →
    q.nextId + ops.length ≤ MAX_CAPACITY →
    ∃ q', run q ops = .ok q' ∧ q'.WF ∧
      q'.history = q.history ++ enqValues ops ∧
      q'.nextId = q.nextId + deqCount ops := by
  intro ops
  induction ops with
  | nil =>
    intro q hwf _ _
    exact ⟨q, rfl, hwf, by simp [enqValues], by simp [deqCount]⟩
  | cons op rest ih =>
    intro q hwf hE hD
    have hlen : (op :: rest).length = rest.length + 1 := by simp
    cases op with
    | enq v =>
      obtain ⟨q₁, hok, hwf₁, hid₁, hh₁⟩ :=
        enqueue_wf q hwf v (by rw [hlen] at hE; omega)
      obtain ⟨q', hrun, hwf', hh', hid'⟩ := ih q₁ hwf₁
        (by rw [hh₁]
            simp only [List.length_append, List.length_cons, List.length_nil]
            rw [hlen] at hE
            omega)
        (by rw [hid₁]
            rw [hlen] at hD
            omega)
      have hstep : q.step (Op.enq v) = .ok q₁ := hok
      refine ⟨q', ?_, hwf', ?_, ?_⟩
      · rw [run_cons, hstep]
        exact hrun
      · rw [hh', hh₁]
        simp [enqValues]
      · rw [hid', hid₁]
        simp [deqCount]
    | deq =>
      obtain ⟨r, q₁, hok, hwf₁, hid₁, hh₁⟩ :=
        dequeue_wf q hwf (by rw [hlen] at hD; omega)
      obtain ⟨q', hrun, hwf', hh', hid'⟩ := ih q₁ hwf₁
        (by rw [hh₁]
            rw [hlen] at hE
            omega)
        (by rw [hid₁]
            rw [hlen] at hD
            omega)
      have hstep : q.step Op.deq = .ok q₁ := by
        show (match q.dequeue with
              | .ok (_, q') => Except.ok q'
              | .error e => Except.error e) = _
        rw [hok]
      refine ⟨q', ?_, hwf', ?_, ?_⟩
      · rw [run_cons, hstep]
        exact hrun
      · rw [hh', hh₁]
        simp [enqValues]
      · rw [hid', hid₁]
        simp [deqCount]
        omega

/-- Any successful run from a well-formed state keeps well-formedness and
accumulates the ghost history and the dequeue count. -/
theorem run_ok_wf {T : Type} :
    ∀ (ops : List (Op T)) (q q' : BlockingQueue T), q.WF →
    run q ops = .ok q' →
    q'.WF ∧ q'.history = q.history ++ enqValues ops ∧
      q'.nextId = q.nextId + deqCount ops := by
  intro ops
  induction ops with
  | nil =>
    intro q q' hwf hrun
    have he : (Except.ok q : Except String (BlockingQueue T)) = .ok q' :=
      hrun
    injection he with he2
    rw [← he2]
    exact ⟨hwf, by simp [enqValues], by simp [deqCount]⟩
  | cons op rest ih =>
    intro q q' hwf hrun
    rw [run_cons] at hrun
    cases op with
    | enq v =>
      cases hstep : q.enqueue v with
      | error e =>
        rw [show q.step (Op.enq v) = Except.error e from hstep] at hrun
        exact Except.noConfusion hrun
      | ok q₁ =>
        rw [show q.step (Op.enq v) = Except.ok q₁ from hstep] at hrun
        obtain ⟨hwf₁, hid₁, hh₁⟩ := enqueue_ok_wf q q₁ hwf v hstep
        obtain ⟨hwf', hh', hid'⟩ := ih q₁ q' hwf₁ hrun
        refine ⟨hwf', ?_, ?_⟩
        · rw [hh', hh₁]
          simp [enqValues]
        · rw [hid', hid₁]
          simp [deqCount]
    | deq =>
      cases hstep : q.dequeue with
      | error e =>
        rw [show q.step Op.deq = Except.error e from (by
          show (match q.dequeue with
                | .ok (_, q₂) => Except.ok q₂
                | .error e => Except.error e) = _
          rw [hstep])] at hrun
        exact Except.noConfusion hrun
      | ok p =>
        obtain ⟨r, q₁⟩ := p
        rw [show q.step Op.deq = Except.ok q₁ from (by
          show (match q.dequeue with
                | .ok (_, q₂) => Except.ok q₂
                | .error e => Except.error e) = _
          rw [hstep])] at hrun
        obtain ⟨hwf₁, hid₁, hh₁⟩ := dequeue_ok_wf q q₁ r hwf hstep
        obtain ⟨hwf', hh', hid'⟩ := ih q₁ q' hwf₁ hrun
        refine ⟨hwf', ?_, ?_⟩
        · rw [hh', hh₁]
          simp [enqValues]
        · rw [hid', hid₁]
          simp [deqCount]
          omega

/-- C1: for every interleaving of `k` enqueue calls with values
`v₁, …, v_k` and `k` dequeue calls (any sequence of at most
`MAX_CAPACITY` calls completes normally), the `j`-th dequeue call's
promise — the promise with id `j` — resolves to `v_j` for every `j < k`:
the final resolution log pairs promise id `j` with the `j`-th enqueued
value, in order, regardless of the interleaving. -/
theorem claim_C1 {T : Type} (ops : List (BlockingQueue.Op T))
    (hlen : ops.length ≤ MAX_CAPACITY)
    (hbal : BlockingQueue.deqCount ops =
      (BlockingQueue.enqValues ops).length) :
    ∃ q', BlockingQueue.run (BlockingQueue.fresh T) ops = .ok q' ∧
      q'.resolved =
        (List.range (BlockingQueue.enqValues ops).length).map
          (fun j => (j, (BlockingQueue.enqValues ops)[j]?)) ∧
      ∀ j, j < (BlockingQueue.enqValues ops).length →
        (j, (BlockingQueue.enqValues ops)[j]?) ∈ q'.resolved := by
  obtain ⟨q', hrun, hwf', hh', hid'⟩ :=
    run_wf ops (fresh T) (fresh_wf T)
      (by simpa [fresh] using hlen) (by simpa [fresh] using hlen)
  have hhv : q'.history = enqValues ops := by
    rw [hh']
    rfl
  have hidv : q'.nextId = (enqValues ops).length := by
    rw [hid', ← hbal]
    simp [fresh]
  have hres : q'.resolved =
      (List.range (enqValues ops).length).map
        (fun j => (j, (enqValues ops)[j]?)) := by
    rw [hwf'.resolved_eq, hhv, hidv, Nat.min_self]
  refine ⟨q', hrun, hres, ?_⟩
  intro j hj
  rw [hres]
  exact List.mem_map.mpr ⟨j, List.mem_range.mpr hj, rfl⟩

/-- Witness for C1: two dequeues interleaved around two enqueues; promise
0 resolves to 10 and promise 1 to 20. -/
theorem claim_C1_witness :
    ∃ q', BlockingQueue.run (BlockingQueue.fresh Nat)
        [.deq, .enq 10, .enq 20, .deq] = .ok q' ∧
      q'.resolved =
        (List.range (BlockingQueue.enqValues
          [BlockingQueue.Op.deq, .enq 10, .enq 20, .deq]).length).map
          (fun j => (j, (BlockingQueue.enqValues
            [BlockingQueue.Op.deq, .enq 10, .enq 20, .deq])[j]?)) ∧
      ∀ j, j < (BlockingQueue.enqValues
          [BlockingQueue.Op.deq, .enq 10, .enq 20, .deq]).length →
        (j, (BlockingQueue.enqValues
          [BlockingQueue.Op.deq, .enq 10, .enq 20, .deq])[j]?) ∈
          q'.resolved :=
  claim_C1 [.deq, .enq 10, .enq 20, .deq] (by decide) rfl

/-- C3: in every state reachable from a fresh BlockingQueue by a sequence
of `enqueue` and `dequeue` calls that return normally, at most one of the
internal `_values` deque (buffered values) and `_resolves` deque (pending
waiters) is non-empty. -/
theorem claim_C3 {T : Type} (ops : List (BlockingQueue.Op T))
    (q' : BlockingQueue T)
    (hrun : BlockingQueue.run (BlockingQueue.fresh T) ops = .ok q') :
    q'.values.size = 0 ∨ q'.resolves.size = 0 := by
  obtain ⟨hwf', _, _⟩ := run_ok_wf ops (fresh T) q' (fresh_wf T) hrun
  have h1 := hwf'.values_size
  have h2 := hwf'.resolves_size
  omega

/-- Witness for C3 after a single enqueue on a fresh queue. -/
theorem claim_C3_witness :
    ({ values := ⟨1, 0, (List.replicate 16 (none : Option Nat)).set 0
          (some 5), 15⟩,
       resolves := BlockingQueue.freshDeque Nat, nextId := 0,
       resolved := [], history := [5] } :
      BlockingQueue Nat).values.size = 0 ∨
    ({ values := ⟨1, 0, (List.replicate 16 (none : Option Nat)).set 0
          (some 5), 15⟩,
       resolves := BlockingQueue.freshDeque Nat, nextId := 0,
       resolved := [], history := [5] } :
      BlockingQueue Nat).resolves.size = 0 :=
  claim_C3 [.enq 5] _ rfl

end BlockingQueue

/-! ## Claims about the ArrayDeque -/

namespace ArrayDeque

/-- C2: whenever `_resize` grows the buffer (to a power-of-two capacity at
least the current one and within the ceiling), the logical contents are
preserved: the size is unchanged and `get i` returns the same element as
before for every `i ∈ [0, size)`. If the live elements did not wrap
(`head + size ≤ old capacity`) the head is unchanged and no element is
moved (every old physical slot is untouched); if they wrapped, the `size`
elements are copied in logical order into the fresh buffer starting at
physical slot 0 and the head becomes 0. -/
theorem claim_C2 {T : Type} (s : ArrayDeque T) (h : s.Inv) (k cap2 : Nat)
    (hcap : cap2 = 2 ^ k) (hge : s.buffer.length ≤ cap2)
    (hmax : cap2 ≤ MAX_CAPACITY) :
    ∃ s', s._resize cap2 = .ok s' ∧ s'.size = s.size ∧
      (∀ i : Nat, i < s.size → s'.get i = s.get i) ∧
      (s.head + s.size ≤ s.buffer.length →
        s'.head = s.head ∧
        ∀ j, j < s.buffer.length →
          s'.buffer.getD j none = s.buffer.getD j none) ∧
      (s.buffer.length < s.head + s.size →
        s'.head = 0 ∧ ∀ i, i < s.size → s'.buffer.getD i none = s.elemAt i) := by
  obtain ⟨s', hok, hinv', hsz', hlen', hmask', hel', hnw, hwr⟩ :=
    resize_spec s h k cap2 hcap hge hmax
  refine ⟨s', hok, hsz', ?_, hnw, hwr⟩
  intro i hi
  have hg' := get_in_range s' hinv' i (by omega) (by omega)
  have hg := get_in_range s h i (by omega) (by omega)
  rw [if_neg (by omega)] at hg' hg
  rw [hg', hg]
  show s'.elemAt i = s.elemAt i
  exact hel' i hi

/-- Witness for C2 at a wrapped concrete deque of capacity 4 growing
to 8. -/
theorem claim_C2_witness :
    ∃ s', (⟨2, 3, [some 2, none, none, some 1], 3⟩ :
        ArrayDeque Nat)._resize 8 = .ok s' ∧
      s'.size = (⟨2, 3, [some 2, none, none, some 1], 3⟩ :
        ArrayDeque Nat).size ∧
      (∀ i : Nat, i < (⟨2, 3, [some 2, none, none, some 1], 3⟩ :
          ArrayDeque Nat).size →
        s'.get i = (⟨2, 3, [some 2, none, none, some 1], 3⟩ :
          ArrayDeque Nat).get i) ∧
      ((⟨2, 3, [some 2, none, none, some 1], 3⟩ : ArrayDeque Nat).head +
          (⟨2, 3, [some 2, none, none, some 1], 3⟩ : ArrayDeque Nat).size ≤
          (⟨2, 3, [some 2, none, none, some 1], 3⟩ :
            ArrayDeque Nat).buffer.length →
        s'.head = (⟨2, 3, [some 2, none, none, some 1], 3⟩ :
          ArrayDeque Nat).head ∧
        ∀ j, j < (⟨2, 3, [some 2, none, none, some 1], 3⟩ :
            ArrayDeque Nat).buffer.length →
          s'.buffer.getD j none =
            (⟨2, 3, [some 2, none, none, some 1], 3⟩ :
              ArrayDeque Nat).buffer.getD j none) ∧
      ((⟨2, 3, [some 2, none, none, some 1], 3⟩ :
          ArrayDeque Nat).buffer.length <
          (⟨2, 3, [some 2, none, none, some 1], 3⟩ : ArrayDeque Nat).head +
          (⟨2, 3, [some 2, none, none, some 1], 3⟩ : ArrayDeque Nat).size →
        s'.head = 0 ∧
        ∀ i, i < (⟨2, 3, [some 2, none, none, some 1], 3⟩ :
            ArrayDeque Nat).size →
          s'.buffer.getD i none =
            (⟨2, 3, [some 2, none, none, some 1], 3⟩ :
              ArrayDeque Nat).elemAt i) :=
  claim_C2 ⟨2, 3, [some 2, none, none, some 1], 3⟩
    ⟨⟨2, rfl⟩, rfl, by decide, by decide, by decide, by decide⟩
    3 8 (by decide) (by decide) (by decide)

/-- C4: `get`/`at` returns `undefined` exactly when
`index < -size ∨ index ≥ size`; in range it returns the element at
physical slot `(head + normalizedIndex) mod capacity` where a negative
index is normalized by adding `size`; and `at i = at (i - size)` for every
`i ∈ [0, size)`. -/
theorem claim_C4 {T : Type} (s : ArrayDeque T) (h : s.Inv) :
    (∀ index : Int, (s.get index = none ↔
      index < -(s.size : Int) ∨ (s.size : Int) ≤ index)) ∧
    (∀ index : Int, -(s.size : Int) ≤ index → index < (s.size : Int) →
      s.get index = s.buffer.getD
        ((s.head + (if index < 0 then index + s.size else index).toNat) %
          s.buffer.length) none) ∧
    (∀ i : Nat, i < s.size → s.getAt i = s.getAt ((i : Int) - s.size)) := by
  have hin : ∀ index : Int, -(s.size : Int) ≤ index →
      index < (s.size : Int) → s.get index =
        s.elemAt (if index < 0 then index + s.size else index).toNat :=
    fun index hlo hhi => get_in_range s h index hlo hhi
  refine ⟨?_, hin, ?_⟩
  · intro index
    constructor
    · intro hnone
      by_contra hrange
      push_neg at hrange
      have hn := norm_lt s index (by omega) (by omega)
      have := h.live _ hn
      rw [← hin index (by omega) (by omega)] at this
      exact this hnone
    · intro hout
      exact get_out_of_range s index hout
  · intro i hi
    unfold getAt
    rw [hin i (by omega) (by omega), hin ((i : Int) - s.size) (by omega)
      (by omega)]
    congr 1
    rw [if_neg (by omega), if_pos (by omega)]
    have harith : (i : Int) - s.size + s.size = i := by omega
    rw [harith]

/-- Witness for C4 at a concrete two-element deque. -/
theorem claim_C4_witness :
    (∀ index : Int,
      ((⟨2, 0, [some 5, some 6, none, none], 3⟩ :
          ArrayDeque Nat).get index = none ↔
        index < -((⟨2, 0, [some 5, some 6, none, none], 3⟩ :
            ArrayDeque Nat).size : Int) ∨
        ((⟨2, 0, [some 5, some 6, none, none], 3⟩ :
            ArrayDeque Nat).size : Int) ≤ index)) ∧
    (∀ index : Int,
      -((⟨2, 0, [some 5, some 6, none, none], 3⟩ :
          ArrayDeque Nat).size : Int) ≤ index →
      index < ((⟨2, 0, [some 5, some 6, none, none], 3⟩ :
          ArrayDeque Nat).size : Int) →
      (⟨2, 0, [some 5, some 6, none, none], 3⟩ :
          ArrayDeque Nat).get index =
        (⟨2, 0, [some 5, some 6, none, none], 3⟩ :
            ArrayDeque Nat).buffer.getD
          (((⟨2, 0, [some 5, some 6, none, none], 3⟩ :
              ArrayDeque Nat).head +
            (if index < 0 then
              index + (⟨2, 0, [some 5, some 6, none, none], 3⟩ :
                ArrayDeque Nat).size
            else index).toNat) %
            (⟨2, 0, [some 5, some 6, none, none], 3⟩ :
              ArrayDeque Nat).buffer.length) none) ∧
    (∀ i : Nat, i < (⟨2, 0, [some 5, some 6, none, none], 3⟩ :
        ArrayDeque Nat).size →
      (⟨2, 0, [some 5, some 6, none, none], 3⟩ : ArrayDeque Nat).getAt i =
        (⟨2, 0, [some 5, some 6, none, none], 3⟩ : ArrayDeque Nat).getAt
          ((i : Int) - (⟨2, 0, [some 5, some 6, none, none], 3⟩ :
            ArrayDeque Nat).size)) :=
  claim_C4 ⟨2, 0, [some 5, some 6, none, none], 3⟩
    ⟨⟨2, rfl⟩, rfl, by decide, by decide, by decide, by decide⟩

/-- C5: on an empty deque, `first`, `last`, `shift` and `pop` all return
`undefined` rather than raising, and the removals leave the state
unchanged; on a non-empty deque, `shift`/`pop` return the first/last
logical element and reset the vacated physical slot to the empty
marker. -/
theorem claim_C5 {T : Type} (s : ArrayDeque T) (h : s.Inv) :
    (s.size = 0 → s.first = none ∧ s.last = none ∧
      s.shift = (none, s) ∧ s.pop = (none, s)) ∧
    (s.size ≠ 0 → s.shift.1 = s.elemAt 0 ∧ s.shift.1 ≠ none ∧
      s.pop.1 = s.elemAt (s.size - 1) ∧ s.pop.1 ≠ none ∧
      s.shift.2.buffer.getD s.head none = none ∧
      s.pop.2.buffer.getD ((s.head + (s.size - 1)) % s.buffer.length) none =
        none) := by
  constructor
  · intro hsz
    exact ⟨first_empty s h hsz, last_empty s h hsz, shift_empty s hsz,
      pop_empty s hsz⟩
  · intro hsz
    obtain ⟨hs1, _, _, _, _, hsclear, _⟩ := shift_spec s h hsz
    obtain ⟨hp1, _, _, _, _, _, hpclear, _⟩ := pop_spec s h hsz
    refine ⟨hs1, ?_, hp1, ?_, hsclear, hpclear⟩
    · rw [hs1]
      exact h.live 0 (by omega)
    · rw [hp1]
      exact h.live (s.size - 1) (by omega)

/-- Witness for C5 at an empty and a two-element concrete deque. -/
theorem claim_C5_witness :
    ((⟨0, 2, [none, none, none, none], 3⟩ : ArrayDeque Nat).size = 0 →
      (⟨0, 2, [none, none, none, none], 3⟩ : ArrayDeque Nat).first = none ∧
      (⟨0, 2, [none, none, none, none], 3⟩ : ArrayDeque Nat).last = none ∧
      (⟨0, 2, [none, none, none, none], 3⟩ : ArrayDeque Nat).shift =
        (none, ⟨0, 2, [none, none, none, none], 3⟩) ∧
      (⟨0, 2, [none, none, none, none], 3⟩ : ArrayDeque Nat).pop =
        (none, ⟨0, 2, [none, none, none, none], 3⟩)) ∧
    ((⟨0, 2, [none, none, none, none], 3⟩ : ArrayDeque Nat).size ≠ 0 →
      (⟨0, 2, [none, none, none, none], 3⟩ : ArrayDeque Nat).shift.1 =
        (⟨0, 2, [none, none, none, none], 3⟩ : ArrayDeque Nat).elemAt 0 ∧
      (⟨0, 2, [none, none, none, none], 3⟩ :
        ArrayDeque Nat).shift.1 ≠ none ∧
      (⟨0, 2, [none, none, none, none], 3⟩ : ArrayDeque Nat).pop.1 =
        (⟨0, 2, [none, none, none, none], 3⟩ : ArrayDeque Nat).elemAt
          ((⟨0, 2, [none, none, none, none], 3⟩ :
            ArrayDeque Nat).size - 1) ∧
      (⟨0, 2, [none, none, none, none], 3⟩ : ArrayDeque Nat).pop.1 ≠ none ∧
      (⟨0, 2, [none, none, none, none], 3⟩ :
          ArrayDeque Nat).shift.2.buffer.getD
        (⟨0, 2, [none, none, none, none], 3⟩ : ArrayDeque Nat).head none =
        none ∧
      (⟨0, 2, [none, none, none, none], 3⟩ :
          ArrayDeque Nat).pop.2.buffer.getD
        (((⟨0, 2, [none, none, none, none], 3⟩ : ArrayDeque Nat).head +
          ((⟨0, 2, [none, none, none, none], 3⟩ :
            ArrayDeque Nat).size - 1)) %
          (⟨0, 2, [none, none, none, none], 3⟩ :
            ArrayDeque Nat).buffer.length) none = none) :=
  claim_C5 ⟨0, 2, [none, none, none, none], 3⟩
    ⟨⟨2, rfl⟩, rfl, by decide, by decide, by decide, by decide⟩

/-- C6: with no capacity hint the initial capacity is the fixed baseline
16; with hint `n` the initial capacity is the smallest power of two that
is `≥ n` and `≥ 1` (so hints 0 and 1 give capacity 1, hint 3 gives 4, and
a hint that is already a power of two is kept); size starts at 0 in all
cases. -/
theorem claim_C6 {T : Type} :
    (∀ s : ArrayDeque T, mkDeque T none = .ok s →
      s.buffer.length = 16 ∧ s.size = 0) ∧
    (∀ (n : Nat) (s : ArrayDeque T), mkDeque T (some n) = .ok s →
      s.size = 0 ∧ s.buffer.length = pow2From 1 n ∧
      (∃ k, s.buffer.length = 2 ^ k) ∧ n ≤ s.buffer.length ∧
      1 ≤ s.buffer.length ∧
      ∀ m : Nat, n ≤ 2 ^ m → s.buffer.length ≤ 2 ^ m) ∧
    pow2From 1 0 = 1 ∧ pow2From 1 1 = 1 ∧ pow2From 1 3 = 4 ∧
    (∀ k : Nat, pow2From 1 (2 ^ k) = 2 ^ k) := by
  refine ⟨?_, ?_, by simp [pow2From], by simp [pow2From],
    by simp [pow2From], ?_⟩
  · intro s hok
    rw [mkDeque_none] at hok
    injection hok with he
    rw [← he]
    exact ⟨by simp, rfl⟩
  · intro n s hok
    have hmax : pow2From 1 n ≤ MAX_CAPACITY := by
      by_contra hover
      push_neg at hover
      rw [mkDeque_some_err n hover] at hok
      exact Except.noConfusion hok
    rw [mkDeque_some_ok n hmax] at hok
    injection hok with he
    have hge := pow2From_ge n 1 n (by omega) (by omega)
    obtain ⟨b, hb⟩ := pow2From_pow2 n 1 n (by omega) 0 (by norm_num)
    have hlen : s.buffer.length = pow2From 1 n := by
      rw [← he]; simp
    refine ⟨by rw [← he], hlen, ⟨b, by rw [hlen, hb]⟩, by omega, by omega,
      ?_⟩
    intro m hm
    rw [hlen]
    exact pow2From_min n 1 n (by omega) 0 m (by norm_num) hm
      (Nat.pos_pow_of_pos m (by norm_num))
  · intro k
    have hge := pow2From_ge (2 ^ k) 1 (2 ^ k) (Nat.sub_le _ _)
      (by norm_num)
    have hmin := pow2From_min (2 ^ k) 1 (2 ^ k) (Nat.sub_le _ _) 0 k
      (by norm_num) (le_refl _) (Nat.pos_pow_of_pos k (by norm_num))
    exact le_antisymm hmin hge.1

/-- Witness for C6: a hint of 3 rounds the capacity to 4. -/
theorem claim_C6_witness :
    (⟨0, 0, List.replicate 4 none, 3⟩ : ArrayDeque Nat).size = 0 ∧
    (⟨0, 0, List.replicate 4 none, 3⟩ : ArrayDeque Nat).buffer.length =
      pow2From 1 3 ∧
    (∃ k, (⟨0, 0, List.replicate 4 none, 3⟩ :
      ArrayDeque Nat).buffer.length = 2 ^ k) ∧
    3 ≤ (⟨0, 0, List.replicate 4 none, 3⟩ :
      ArrayDeque Nat).buffer.length ∧
    1 ≤ (⟨0, 0, List.replicate 4 none, 3⟩ :
      ArrayDeque Nat).buffer.length ∧
    (∀ m : Nat, 3 ≤ 2 ^ m →
      (⟨0, 0, List.replicate 4 none, 3⟩ :
        ArrayDeque Nat).buffer.length ≤ 2 ^ m) :=
  (claim_C6 (T := Nat)).2.1 3 _
    (by simp [mkDeque, assertCapacityValid, pow2From, MAX_CAPACITY])

/-- C7: with the ceiling `MAX_CAPACITY = 2^31`, a constructor hint whose
power-of-two rounding exceeds `2^31` fails with the `RangeError` of
`_assertCapacityValid`, and a `push` or `unshift` that would require
growing beyond `2^31` fails with that `RangeError` while producing no
mutated state (the throw happens before any field write, so the caller's
deque keeps its size, head and buffer). -/
theorem claim_C7 {T : Type} :
    (∀ n : Nat, MAX_CAPACITY < pow2From 1 n →
      mkDeque T (some n) = .error (capacityExceededMsg (pow2From 1 n))) ∧
    (∀ (s : ArrayDeque T) (v : T), s.size = s.buffer.length →
      MAX_CAPACITY < s.buffer.length * 2 →
      s.push v = .error (capacityExceededMsg (s.buffer.length * 2)) ∧
      s.unshift v = .error (capacityExceededMsg (s.buffer.length * 2))) :=
  ⟨fun n h => mkDeque_some_err n h,
    fun s v h1 h2 => ⟨push_err s v h1 h2, unshift_err s v h1 h2⟩⟩

theorem fullDeque_size_eq :
    (⟨2 ^ 31, 0, List.replicate (2 ^ 31) (some 0), 2 ^ 31 - 1⟩ :
      ArrayDeque Nat).size =
    (⟨2 ^ 31, 0, List.replicate (2 ^ 31) (some 0), 2 ^ 31 - 1⟩ :
      ArrayDeque Nat).buffer.length :=
  (List.length_replicate _ _).symm

theorem fullDeque_len :
    (⟨2 ^ 31, 0, List.replicate (2 ^ 31) (some 0), 2 ^ 31 - 1⟩ :
      ArrayDeque Nat).buffer.length = 2 ^ 31 :=
  List.length_replicate _ _

theorem fullDeque_over :
    MAX_CAPACITY <
      (⟨2 ^ 31, 0, List.replicate (2 ^ 31) (some 0), 2 ^ 31 - 1⟩ :
        ArrayDeque Nat).buffer.length * 2 := by
  rw [fullDeque_len]
  norm_num [MAX_CAPACITY]

/-- Witness for C7: the hint `2^31 + 1` rounds to `2^32` and fails; a full
deque of `2^31` elements fails to grow on `push` and `unshift`. -/
theorem claim_C7_witness :
    mkDeque Nat (some (2 ^ 31 + 1)) =
      .error (capacityExceededMsg (pow2From 1 (2 ^ 31 + 1))) ∧
    ((⟨2 ^ 31, 0, List.replicate (2 ^ 31) (some 0), 2 ^ 31 - 1⟩ :
        ArrayDeque Nat).push 7 =
      .error (capacityExceededMsg
        ((⟨2 ^ 31, 0, List.replicate (2 ^ 31) (some 0), 2 ^ 31 - 1⟩ :
          ArrayDeque Nat).buffer.length * 2)) ∧
    (⟨2 ^ 31, 0, List.replicate (2 ^ 31) (some 0), 2 ^ 31 - 1⟩ :
        ArrayDeque Nat).unshift 7 =
      .error (capacityExceededMsg
        ((⟨2 ^ 31, 0, List.replicate (2 ^ 31) (some 0), 2 ^ 31 - 1⟩ :
          ArrayDeque Nat).buffer.length * 2))) :=
  ⟨(claim_C7 (T := Nat)).1 (2 ^ 31 + 1)
    (by set_option maxRecDepth 100000 in simp [pow2From, MAX_CAPACITY]),
   (claim_C7 (T := Nat)).2
    ⟨2 ^ 31, 0, List.replicate (2 ^ 31) (some 0), 2 ^ 31 - 1⟩ 7
    fullDeque_size_eq fullDeque_over⟩

/-- C8: `set` with an index outside `[-size, size)` throws a `RangeError`
(never silently ignored) and, the call producing no new state, leaves the
deque unchanged; with an in-range index it replaces exactly that logical
element — a subsequent `at index` returns the new value — while size,
head, capacity and every other logical element are unchanged. -/
theorem claim_C8 {T : Type} (s : ArrayDeque T) (h : s.Inv) (index : Int)
    (v : T) :
    (index < -(s.size : Int) ∨ (s.size : Int) ≤ index →
      s.set index v = .error (outOfRangeMsg index s.size)) ∧
    (-(s.size : Int) ≤ index → index < (s.size : Int) →
      ∃ s', s.set index v = .ok s' ∧ s'.getAt index = some v ∧
        s'.size = s.size ∧ s'.head = s.head ∧
        s'.buffer.length = s.buffer.length ∧
        ∀ j, j < s.size →
          j ≠ (if index < 0 then index + s.size else index).toNat →
          s'.elemAt j = s.elemAt j) := by
  refine ⟨fun hout => set_out_of_range s index v hout, ?_⟩
  intro hlo hhi
  obtain ⟨s', hok, hinv', hsz', hhd', hlen', hel', hpres'⟩ :=
    set_in_range s h index v hlo hhi
  refine ⟨s', hok, ?_, hsz', hhd', hlen', hpres'⟩
  unfold getAt
  rw [get_in_range s' hinv' index (by omega) (by omega), hsz']
  exact hel'

/-- Witness for C8 at a concrete two-element deque written at index -1. -/
theorem claim_C8_witness :
    ((-1 : Int) < -((⟨2, 0, [some 5, some 6, none, none], 3⟩ :
        ArrayDeque Nat).size : Int) ∨
      ((⟨2, 0, [some 5, some 6, none, none], 3⟩ :
        ArrayDeque Nat).size : Int) ≤ (-1 : Int) →
      (⟨2, 0, [some 5, some 6, none, none], 3⟩ : ArrayDeque Nat).set
        (-1) 9 = .error (outOfRangeMsg (-1)
          (⟨2, 0, [some 5, some 6, none, none], 3⟩ :
            ArrayDeque Nat).size)) ∧
    (-((⟨2, 0, [some 5, some 6, none, none], 3⟩ :
        ArrayDeque Nat).size : Int) ≤ (-1 : Int) →
      (-1 : Int) < ((⟨2, 0, [some 5, some 6, none, none], 3⟩ :
        ArrayDeque Nat).size : Int) →
      ∃ s', (⟨2, 0, [some 5, some 6, none, none], 3⟩ :
          ArrayDeque Nat).set (-1) 9 = .ok s' ∧
        s'.getAt (-1) = some 9 ∧
        s'.size = (⟨2, 0, [some 5, some 6, none, none], 3⟩ :
          ArrayDeque Nat).size ∧
        s'.head = (⟨2, 0, [some 5, some 6, none, none], 3⟩ :
          ArrayDeque Nat).head ∧
        s'.buffer.length = (⟨2, 0, [some 5, some 6, none, none], 3⟩ :
          ArrayDeque Nat).buffer.length ∧
        ∀ j, j < (⟨2, 0, [some 5, some 6, none, none], 3⟩ :
            ArrayDeque Nat).size →
          j ≠ (if (-1 : Int) < 0 then
            (-1 : Int) + (⟨2, 0, [some 5, some 6, none, none], 3⟩ :
              ArrayDeque Nat).size
          else (-1 : Int)).toNat →
          s'.elemAt j = (⟨2, 0, [some 5, some 6, none, none], 3⟩ :
            ArrayDeque Nat).elemAt j) :=
  claim_C8 ⟨2, 0, [some 5, some 6, none, none], 3⟩
    ⟨⟨2, rfl⟩, rfl, by decide, by decide, by decide, by decide⟩ (-1) 9

/-- C10 (implicit): in every ArrayDeque state reachable from a
constructor call through public operations, every physical slot other
than the `size` slots holding the live elements contains the empty marker
`undefined`; consequently the check-free `first` and `last` return
`undefined` on an empty deque even though they test nothing. -/
theorem claim_C10 {T : Type} (s : ArrayDeque T) (h : Reachable s) :
    (∀ j, j < s.buffer.length →
      (∀ i, i < s.size → j ≠ (s.head + i) % s.buffer.length) →
      s.buffer.getD j none = none) ∧
    (s.size = 0 → s.first = none ∧ s.last = none) := by
  have hinv := reachable_inv h
  exact ⟨hinv.dead,
    fun hsz => ⟨first_empty s hinv hsz, last_empty s hinv hsz⟩⟩

/-- Witness for C10 at the freshly constructed deque. -/
theorem claim_C10_witness :
    (∀ j, j < (⟨0, 0, List.replicate 16 none, 15⟩ :
        ArrayDeque Nat).buffer.length →
      (∀ i, i < (⟨0, 0, List.replicate 16 none, 15⟩ :
          ArrayDeque Nat).size →
        j ≠ ((⟨0, 0, List.replicate 16 none, 15⟩ :
          ArrayDeque Nat).head + i) %
          (⟨0, 0, List.replicate 16 none, 15⟩ :
            ArrayDeque Nat).buffer.length) →
      (⟨0, 0, List.replicate 16 none, 15⟩ :
        ArrayDeque Nat).buffer.getD j none = none) ∧
    ((⟨0, 0, List.replicate 16 none, 15⟩ : ArrayDeque Nat).size = 0 →
      (⟨0, 0, List.replicate 16 none, 15⟩ : ArrayDeque Nat).first = none ∧
      (⟨0, 0, List.replicate 16 none, 15⟩ : ArrayDeque Nat).last = none) :=
  claim_C10 ⟨0, 0, List.replicate 16 none, 15⟩
    (Reachable.base none _ rfl)

end ArrayDeque

/-! ## The tee mechanism -/

namespace TeeSys

theorem replay_cons {T : Type} (q : BlockingQueue T) (v : T)
    (rest : List (Option T)) :
    replay q (some v :: rest) =
      match q.enqueue v with
      | .ok q' => replay q' rest
      | .error e => .error e := rfl

/-- Replaying a list of present values into a well-formed queue appends
them to its history (success version, used by `tee`). -/
theorem replay_wf {T : Type} : ∀ (vals : List T) (q : BlockingQueue T),
    q.WF → q.history.length + vals.length ≤ MAX_CAPACITY →
    ∃ q', replay q (vals.map some) = .ok q' ∧ q'.WF ∧
      q'.history = q.history ++ vals ∧ q'.nextId = q.nextId := by
  intro vals
  induction vals with
  | nil =>
    intro q hwf _
    exact ⟨q, rfl, hwf, by simp, rfl⟩
  | cons v vs ih =>
    intro q hwf hb
    have hb' : q.history.length + (vs.length + 1) ≤ MAX_CAPACITY := by
      simpa using hb
    obtain ⟨q₁, hok, hwf₁, hid₁, hh₁⟩ :=
      BlockingQueue.enqueue_wf q hwf v (by omega)
    obtain ⟨q', hrep, hwf', hh', hid'⟩ := ih q₁ hwf₁
      (by rw [hh₁]
          simp only [List.length_append, List.length_cons, List.length_nil]
          omega)
    refine ⟨q', ?_, hwf', ?_, by rw [hid', hid₁]⟩
    · show replay q (some v :: vs.map some) = _
      rw [replay_cons, hok]
      exact hrep
    · rw [hh', hh₁]
      simp

/-- A successful replay preserves well-formedness; the replayed slots
were all present and extend the history. -/
theorem replay_ok_wf {T : Type} : ∀ (vals : List (Option T))
    (q q' : BlockingQueue T), q.WF → replay q vals = .ok q' →
    q'.WF ∧ q'.nextId = q.nextId ∧
      ∃ vs : List T, vals = vs.map some ∧
        q'.history = q.history ++ vs := by
  intro vals
  induction vals with
  | nil =>
    intro q q' hwf hok
    have he : (Except.ok q : Except String (BlockingQueue T)) = .ok q' :=
      hok
    injection he with he2
    rw [← he2]
    exact ⟨hwf, rfl, [], by simp, by simp⟩
  | cons ov rest ih =>
    intro q q' hwf hok
    cases ov with
    | none => exact Except.noConfusion hok
    | some v =>
      rw [replay_cons] at hok
      cases hstep : q.enqueue v with
      | error e =>
        rw [hstep] at hok
        exact Except.noConfusion hok
      | ok q₁ =>
        rw [hstep] at hok
        obtain ⟨hwf₁, hid₁, hh₁⟩ :=
          BlockingQueue.enqueue_ok_wf q q₁ hwf v hstep
        obtain ⟨hwf', hid', vs, hvs, hh'⟩ := ih q₁ q' hwf₁ hok
        refine ⟨hwf', by rw [hid', hid₁], v :: vs, by rw [hvs]; rfl, ?_⟩
        rw [hh', hh₁]
        simp

/-- Fanning a value out to a list of well-formed queues delivers it to
each of them. -/
theorem mapM_enqueue_ok {T : Type} :
    ∀ (ts ts' : List (BlockingQueue T)) (v : T), (∀ t ∈ ts, t.WF) →
    ts.mapM (fun t => BlockingQueue.enqueue t v) = .ok ts' →
    ts'.length = ts.length ∧ (∀ t' ∈ ts', t'.WF) ∧
    ∀ (i : Nat) (t : BlockingQueue T), ts[i]? = some t →
      ∃ t' : BlockingQueue T, ts'[i]? = some t' ∧
        t'.history = t.history ++ [v] := by
  intro ts
  induction ts with
  | nil =>
    intro ts' v _ hok
    rw [List.mapM_nil] at hok
    have he : (Except.ok [] : Except String (List (BlockingQueue T))) =
        .ok ts' := hok
    injection he with he2
    subst he2
    refine ⟨rfl, fun u hu => absurd hu (List.not_mem_nil u), ?_⟩
    intro i t h
    simp at h
  | cons t ts ih =>
    intro ts' v hwf hok
    rw [List.mapM_cons] at hok
    cases hstep : t.enqueue v with
    | error e =>
      rw [hstep] at hok
      exact Except.noConfusion hok
    | ok t₁ =>
      rw [hstep] at hok
      cases hmm : ts.mapM (fun t => BlockingQueue.enqueue t v) with
      | error e =>
        rw [hmm] at hok
        exact Except.noConfusion hok
      | ok bs =>
        rw [hmm] at hok
        have he : (Except.ok (t₁ :: bs) :
            Except String (List (BlockingQueue T))) = .ok ts' := hok
        injection he with he2
        subst he2
        obtain ⟨hlen, hwfs, hidx⟩ := ih bs v
          (fun u hu => hwf u (List.mem_cons_of_mem t hu)) hmm
        obtain ⟨hwf₁, _, hh₁⟩ := BlockingQueue.enqueue_ok_wf t t₁
          (hwf t (List.mem_cons_self t ts)) v hstep
        refine ⟨by simp [hlen], ?_, ?_⟩
        · intro u hu
          rcases List.mem_cons.mp hu with hu | hu
          · rw [hu]; exact hwf₁
          · exact hwfs u hu
        · intro i u hu
          cases i with
          | zero =>
            simp only [List.getElem?_cons_zero] at hu ⊢
            injection hu with hu2
            subst hu2
            exact ⟨t₁, rfl, hh₁⟩
          | succ i =>
            simp only [List.getElem?_cons_succ] at hu ⊢
            exact hidx i u hu

theorem run_sys_cons {T : Type} (sys : TeeSys T) (op : Op T)
    (rest : List (Op T)) :
    run sys (op :: rest) =
      match sys.step op with
      | .ok sys₁ => run sys₁ rest
      | .error e => .error e := rfl

theorem enqValues_cons {T : Type} (op : Op T) (rest : List (Op T)) :
    enqValues (op :: rest) = enqValues [op] ++ enqValues rest := by
  cases op <;> rfl

/-- One successful system call keeps every queue well-formed, and each
already-registered teed queue receives exactly the values enqueued by the
call. -/
theorem sysStep_ok {T : Type} (sys sys' : TeeSys T) (op : Op T)
    (hwf : sys.SysWF) (hst : sys.step op = .ok sys') :
    sys'.SysWF ∧
    ∀ (i : Nat) (t : BlockingQueue T), sys.tees[i]? = some t →
      ∃ t' : BlockingQueue T, sys'.tees[i]? = some t' ∧
        t'.history = t.history ++ enqValues [op] := by
  obtain ⟨howf, htwf⟩ := hwf
  cases op with
  | enq v =>
    have hst' : sys.enqueue v = .ok sys' := hst
    unfold enqueue at hst'
    cases hmm : sys.tees.mapM (fun t => BlockingQueue.enqueue t v) with
    | error e =>
      rw [hmm] at hst'
      exact Except.noConfusion hst'
    | ok tees' =>
      rw [hmm] at hst'
      cases horig : sys.orig.enqueue v with
      | error e =>
        rw [horig] at hst'
        exact Except.noConfusion hst'
      | ok orig' =>
        rw [horig] at hst'
        have he : (Except.ok ({ orig := orig', tees := tees' } : TeeSys T))
            = .ok sys' := hst'
        injection he with he2
        subst he2
        obtain ⟨hlen, hwfs, hidx⟩ := mapM_enqueue_ok sys.tees tees' v htwf hmm
        obtain ⟨howf', _, _⟩ :=
          BlockingQueue.enqueue_ok_wf sys.orig orig' howf v horig
        refine ⟨⟨howf', hwfs⟩, ?_⟩
        intro i t ht
        obtain ⟨t', ht', hh'⟩ := hidx i t ht
        exact ⟨t', ht', by rw [hh']; rfl⟩
  | deqOrig =>
    cases horig : sys.orig.dequeue with
    | error e =>
      have : sys.step Op.deqOrig = .error e := by
        show (match sys.dequeueOrig with
              | .ok (_, sys₂) => Except.ok sys₂
              | .error e => Except.error e) = _
        unfold dequeueOrig
        rw [horig]
      rw [this] at hst
      exact Except.noConfusion hst
    | ok p =>
      obtain ⟨r, orig'⟩ := p
      have : sys.step Op.deqOrig =
          .ok { orig := orig', tees := sys.tees } := by
        show (match sys.dequeueOrig with
              | .ok (_, sys₂) => Except.ok sys₂
              | .error e => Except.error e) = _
        unfold dequeueOrig
        rw [horig]
      rw [this] at hst
      injection hst with he2
      subst he2
      obtain ⟨howf', _, _⟩ :=
        BlockingQueue.dequeue_ok_wf sys.orig orig' r howf horig
      refine ⟨⟨howf', htwf⟩, ?_⟩
      intro i t ht
      exact ⟨t, ht, by simp [enqValues]⟩
  | deqTee j =>
    have hst' : sys.dequeueTee j = .ok sys' := hst
    unfold dequeueTee at hst'
    cases hj : sys.tees[j]? with
    | none =>
      rw [hj] at hst'
      injection hst' with he2
      subst he2
      refine ⟨⟨howf, htwf⟩, ?_⟩
      intro i t ht
      exact ⟨t, ht, by simp [enqValues]⟩
    | some u =>
      rw [hj] at hst'
      dsimp only at hst'
      cases hd : u.dequeue with
      | error e =>
        rw [hd] at hst'
        exact Except.noConfusion hst'
      | ok p =>
        obtain ⟨r, u'⟩ := p
        rw [hd] at hst'
        have he : (Except.ok ({ orig := sys.orig,
                                 tees := sys.tees.set j u' } : TeeSys T)) =
            .ok sys' := hst'
        injection he with he2
        subst he2
        obtain ⟨huwf', _, huh'⟩ := BlockingQueue.dequeue_ok_wf u u' r
          (htwf u (List.getElem?_mem hj)) hd
        constructor
        · refine ⟨howf, ?_⟩
          intro w hw
          rcases List.mem_or_eq_of_mem_set hw with hw | hw
          · exact htwf w hw
          · rw [hw]; exact huwf'
        · intro i t ht
          by_cases hij : i = j
          · subst hij
            rw [hj] at ht
            injection ht with ht2
            have hjlt : i < sys.tees.length := by
              by_contra hge
              push_neg at hge
              rw [List.getElem?_eq_none hge] at hj
              exact Option.noConfusion hj
            refine ⟨u', List.getElem?_set_self hjlt, ?_⟩
            rw [huh', ← ht2]
            simp [enqValues]
          · refine ⟨t, ?_, by simp [enqValues]⟩
            rw [List.getElem?_set_ne (fun hc => hij hc.symm)]
            exact ht
  | tee =>
    have hst' : sys.tee = .ok sys' := hst
    unfold tee at hst'
    cases hrep : replay (BlockingQueue.fresh T) sys.orig.values.toList with
    | error e =>
      rw [hrep] at hst'
      exact Except.noConfusion hst'
    | ok teed =>
      rw [hrep] at hst'
      have he : (Except.ok ({ orig := sys.orig,
                               tees := sys.tees ++ [teed] } : TeeSys T)) =
          .ok sys' := hst'
      injection he with he2
      subst he2
      obtain ⟨htdwf, _, _⟩ := replay_ok_wf sys.orig.values.toList
        (BlockingQueue.fresh T) teed (BlockingQueue.fresh_wf T) hrep
      constructor
      · refine ⟨howf, ?_⟩
        intro w hw
        rcases List.mem_append.mp hw with hw | hw
        · exact htwf w hw
        · rw [List.mem_singleton.mp hw]
          exact htdwf
      · intro i t ht
        have hilt : i < sys.tees.length := by
          by_contra hge
          push_neg at hge
          rw [List.getElem?_eq_none hge] at ht
          exact Option.noConfusion ht
        refine ⟨t, ?_, by simp [enqValues]⟩
        rw [List.getElem?_append_left hilt]
        exact ht

/-- Over any successful call sequence, every already-registered teed
queue receives exactly the values enqueued into the original, in order. -/
theorem runSys_ok {T : Type} : ∀ (ops : List (Op T)) (sys sys' : TeeSys T),
    sys.SysWF → run sys ops = .ok sys' →
    sys'.SysWF ∧
    ∀ (i : Nat) (t : BlockingQueue T), sys.tees[i]? = some t →
      ∃ t' : BlockingQueue T, sys'.tees[i]? = some t' ∧
        t'.history = t.history ++ enqValues ops := by
  intro ops
  induction ops with
  | nil =>
    intro sys sys' hwf hrun
    have he : (Except.ok sys : Except String (TeeSys T)) = .ok sys' := hrun
    injection he with he2
    subst he2
    refine ⟨hwf, ?_⟩
    intro i t ht
    exact ⟨t, ht, by simp [enqValues]⟩
  | cons op rest ih =>
    intro sys sys' hwf hrun
    rw [run_sys_cons] at hrun
    cases hstep : sys.step op with
    | error e =>
      rw [hstep] at hrun
      exact Except.noConfusion hrun
    | ok sys₁ =>
      rw [hstep] at hrun
      obtain ⟨hwf₁, hidx₁⟩ := sysStep_ok sys sys₁ op hwf hstep
      obtain ⟨hwf', hidx'⟩ := ih sys₁ sys' hwf₁ hrun
      refine ⟨hwf', ?_⟩
      intro i t ht
      obtain ⟨t₁, ht₁, hh₁⟩ := hidx₁ i t ht
      obtain ⟨t', ht', hh'⟩ := hidx' i t₁ ht₁
      refine ⟨t', ht', ?_⟩
      rw [hh', hh₁, enqValues_cons op rest]
      simp

/-- `tee` succeeds on a system whose original queue is well-formed (and
holds at most `MAX_CAPACITY` unclaimed values): it registers a fresh
queue that has received exactly the produced-but-unclaimed values. -/
theorem tee_spec {T : Type} (sys : TeeSys T) (hwf : sys.orig.WF)
    (hsz : sys.orig.values.size ≤ MAX_CAPACITY) :
    ∃ t, sys.tee = .ok { orig := sys.orig, tees := sys.tees ++ [t] } ∧
      t.WF ∧ t.nextId = 0 ∧ t.resolves.size = 0 ∧
      t.history = sys.orig.history.drop
        (min sys.orig.history.length sys.orig.nextId) ∧
      t.values.toList = sys.orig.values.toList := by
  have hv := hwf.values_size
  have hvals : sys.orig.values.toList =
      (sys.orig.history.drop
        (min sys.orig.history.length sys.orig.nextId)).map some :=
    hwf.values_eq
  have hlen : (sys.orig.history.drop
      (min sys.orig.history.length sys.orig.nextId)).length ≤
      MAX_CAPACITY := by
    simp only [List.length_drop]
    omega
  obtain ⟨t, hrep, htwf, hth, htid⟩ := replay_wf
    (sys.orig.history.drop (min sys.orig.history.length sys.orig.nextId))
    (BlockingQueue.fresh T) (BlockingQueue.fresh_wf T)
    (by simpa [BlockingQueue.fresh] using hlen)
  have hth' : t.history = sys.orig.history.drop
      (min sys.orig.history.length sys.orig.nextId) := by
    rw [hth]
    rfl
  have htid' : t.nextId = 0 := htid
  refine ⟨t, ?_, htwf, htid', ?_, hth', ?_⟩
  · unfold tee
    rw [hvals, hrep]
  · have := htwf.resolves_size
    omega
  · rw [htwf.values_eq, hth', htid', hvals]
    simp

/-- C9: `tee()` creates a new independent queue such that (1) every value
still buffered undequeued in the original at tee time has been replayed
once into it — its received history is exactly the unclaimed buffer, so
(3) values dequeued before the tee never appear in it; (2) over any
subsequent successful call sequence, the new queue additionally receives
exactly the values enqueued into the original after the tee (the model's
`enqueue` fans out to every tee before the original's own waiter/buffer
handling, mirroring the listener loop running first); and (4) dequeuing
from the original removes nothing from the new queue. -/
theorem claim_C9 {T : Type} (sys : TeeSys T) (hwf : sys.SysWF)
    (hsz : sys.orig.values.size ≤ MAX_CAPACITY) :
    ∃ t, sys.tee = .ok { orig := sys.orig, tees := sys.tees ++ [t] } ∧
      t.history = sys.orig.history.drop
        (min sys.orig.history.length sys.orig.nextId) ∧
      t.values.toList = sys.orig.values.toList ∧
      t.resolves.size = 0 ∧
      (∀ (ops : List (TeeSys.Op T)) (sys' : TeeSys T),
        TeeSys.run { orig := sys.orig, tees := sys.tees ++ [t] } ops =
          .ok sys' →
        ∃ t', sys'.tees[sys.tees.length]? = some t' ∧
          t'.history = t.history ++ TeeSys.enqValues ops) ∧
      (∀ (r : Option (Option T)) (sys' : TeeSys T),
        TeeSys.dequeueOrig { orig := sys.orig, tees := sys.tees ++ [t] } =
          .ok (r, sys') →
        sys'.tees = sys.tees ++ [t]) := by
  obtain ⟨t, hok, htwf, htid, hrs, hth, htv⟩ := tee_spec sys hwf.1 hsz
  refine ⟨t, hok, hth, htv, hrs, ?_, ?_⟩
  · intro ops sys' hrun
    have hswf : ({ orig := sys.orig, tees := sys.tees ++ [t] } :
        TeeSys T).SysWF := by
      refine ⟨hwf.1, ?_⟩
      intro w hw
      rcases List.mem_append.mp hw with hw | hw
      · exact hwf.2 w hw
      · rw [List.mem_singleton.mp hw]
        exact htwf
    obtain ⟨_, hidx⟩ := runSys_ok ops _ sys' hswf hrun
    refine hidx sys.tees.length t ?_
    show (sys.tees ++ [t])[sys.tees.length]? = some t
    rw [List.getElem?_append_right (le_refl _)]
    simp
  · intro r sys' hdeq
    unfold dequeueOrig at hdeq
    cases horig : sys.orig.dequeue with
    | error e =>
      rw [horig] at hdeq
      exact Except.noConfusion hdeq
    | ok p =>
      rw [horig] at hdeq
      have he : (Except.ok
          (p.1, (⟨p.2, sys.tees ++ [t]⟩ : TeeSys T))) = .ok (r, sys') :=
        hdeq
      injection he with he2
      injection he2 with _ he3
      rw [← he3]

/-- Witness for C9 on a fresh system with no prior tees. -/
theorem claim_C9_witness :
    ∃ t, TeeSys.tee (⟨BlockingQueue.fresh Nat, []⟩ : TeeSys Nat) =
        .ok { orig := (⟨BlockingQueue.fresh Nat, []⟩ : TeeSys Nat).orig,
              tees := (⟨BlockingQueue.fresh Nat, []⟩ :
                  TeeSys Nat).tees ++ [t] } ∧
      t.history = (⟨BlockingQueue.fresh Nat, []⟩ :
          TeeSys Nat).orig.history.drop
        (min (⟨BlockingQueue.fresh Nat, []⟩ :
            TeeSys Nat).orig.history.length
          (⟨BlockingQueue.fresh Nat, []⟩ : TeeSys Nat).orig.nextId) ∧
      t.values.toList = (⟨BlockingQueue.fresh Nat, []⟩ :
        TeeSys Nat).orig.values.toList ∧
      t.resolves.size = 0 ∧
      (∀ (ops : List (TeeSys.Op Nat)) (sys' : TeeSys Nat),
        TeeSys.run
            { orig := (⟨BlockingQueue.fresh Nat, []⟩ : TeeSys Nat).orig,
              tees := (⟨BlockingQueue.fresh Nat, []⟩ :
                  TeeSys Nat).tees ++ [t] } ops = .ok sys' →
        ∃ t', sys'.tees[(⟨BlockingQueue.fresh Nat, []⟩ :
            TeeSys Nat).tees.length]? = some t' ∧
          t'.history = t.history ++ TeeSys.enqValues ops) ∧
      (∀ (r : Option (Option Nat)) (sys' : TeeSys Nat),
        TeeSys.dequeueOrig
            { orig := (⟨BlockingQueue.fresh Nat, []⟩ : TeeSys Nat).orig,
              tees := (⟨BlockingQueue.fresh Nat, []⟩ :
                  TeeSys Nat).tees ++ [t] } = .ok (r, sys') →
        sys'.tees = (⟨BlockingQueue.fresh Nat, []⟩ :
          TeeSys Nat).tees ++ [t]) :=
  claim_C9 ⟨BlockingQueue.fresh Nat, []⟩
    ⟨BlockingQueue.fresh_wf Nat, fun t ht => absurd ht (List.not_mem_nil t)⟩
    (by decide)

end TeeSys

end ArraydequeSpec
